import Mathlib

/-!
# Verification of the Huffman compressor (`Compresor_Huffman.py`)

Shallow embedding of the algorithmic core of the repository's single source
file.  File I/O (reading the input file, pickling the tree artifact) is
stripped; the byte payload, the serialized-tree token list and the padding
count that the Python code writes to disk are returned directly.

Modelling conventions:
* Python's dynamically typed serialized list (booleans and one-character
  strings mixed) becomes `Tok` (`flag` / `sym`).  A node's `char` field holds
  a `Tok` so that `deserialize_tree` can store whatever `serialized[1]` is,
  exactly as the Python code does.
* A `HuffmanNode` is either a `leaf` (Python: `char is not None`, children
  `None`) or an `internal` node with two optional children (Python: `char is
  None`); `is_leaf` is the constructor test, matching `char is not None` on
  every node the program builds.
* Bit strings ("0"/"1" characters in Python) are `List Bool`, `false` = '0'.
* `heapq` (Python standard library) is modelled by its documented min-pop
  contract: `extractMin` removes the leftmost minimum-frequency element and
  `heappush` appends.  The spec fixes no tie order, and no claim depends on
  the heap's incidental tie-breaking.
* Raising an exception becomes `Except.error` carrying the message.
-/

inductive Tok where
  | flag (b : Bool)
  | sym (c : Char)
deriving DecidableEq, Repr

/-- Python truthiness of a serialized-list element: `True`/`False` for the
booleans, and a one-character string is always truthy. -/
def Tok.truthy : Tok → Bool
  | .flag b => b
  | .sym _ => true

inductive HuffmanNode where
  | leaf (char : Tok) (freq : Nat)
  | internal (freq : Nat) (left right : Option HuffmanNode)

namespace HuffmanNode

def freq : HuffmanNode → Nat
  | .leaf _ f => f
  | .internal f _ _ => f

/-- `HuffmanNode.is_leaf`: `self.char is not None`. -/
def is_leaf : HuffmanNode → Bool
  | .leaf _ _ => true
  | .internal _ _ _ => false

/-- `current_node.left` / `current_node.right` selected by a bit
('0' = `false` → left). A leaf's children are `None`. -/
def childFor : HuffmanNode → Bool → Option HuffmanNode
  | .leaf _ _, _ => none
  | .internal _ l _, false => l
  | .internal _ _ r, true => r

end HuffmanNode

/-- One step of `collections.Counter`: increment the count of `c`, inserting
it at the end on first occurrence (Python dicts preserve insertion order). -/
def bumpCount : List (Char × Nat) → Char → List (Char × Nat)
  | [], c => [(c, 1)]
  | (d, n) :: rest, c =>
      if d = c then (d, n + 1) :: rest else (d, n) :: bumpCount rest c

/-- `calculate_frequencies`: `Counter(text)` as an insertion-ordered
association list. -/
def calculate_frequencies (text : List Char) : List (Char × Nat) :=
  text.foldl bumpCount []

/-- `heapq.heappop` modelled by its contract: remove the leftmost
minimum-frequency element. -/
def extractMin : List HuffmanNode → Option (HuffmanNode × List HuffmanNode)
  | [] => none
  | t :: rest =>
      match extractMin rest with
      | none => some (t, [])
      | some (m, rest') =>
          if t.freq ≤ m.freq then some (t, rest) else some (m, t :: rest')

theorem extractMin_isSome (a : HuffmanNode) (as : List HuffmanNode) :
    (extractMin (a :: as)).isSome := by
  simp only [extractMin]
  cases extractMin as with
  | none => rfl
  | some p => obtain ⟨m, r⟩ := p; dsimp only; split <;> rfl

theorem extractMin_length :
    ∀ {q : List HuffmanNode} {t rest}, extractMin q = some (t, rest) →
      rest.length + 1 = q.length := by
  intro q
  induction q with
  | nil => intro t rest h; simp [extractMin] at h
  | cons a as ih =>
      intro t rest h
      simp only [extractMin] at h
      cases hm : extractMin as with
      | none =>
          rw [hm] at h
          cases as with
          | nil =>
              simp only [Option.some.injEq, Prod.mk.injEq] at h
              simp [← h.2]
          | cons b bs =>
              exfalso
              have hs := extractMin_isSome b bs
              rw [hm] at hs
              simp at hs
      | some p =>
          rw [hm] at h
          obtain ⟨m, rest'⟩ := p
          by_cases hle : a.freq ≤ m.freq
          · simp only [hle, if_true, Option.some.injEq, Prod.mk.injEq] at h
            simp [← h.2]
          · simp only [hle, if_false, Option.some.injEq, Prod.mk.injEq] at h
            have := ih hm
            simp [← h.2, List.length_cons]
            omega

/-- The `while len(priority_queue) > 1` merge loop of `build_huffman_tree`,
followed by `priority_queue[0] if priority_queue else None`. -/
def build_loop (q : List HuffmanNode) : Option HuffmanNode :=
  if h : q.length ≤ 1 then q.head?
  else
    match hm : extractMin q with
    | none => none
    | some (left, q1) =>
        match hm2 : extractMin q1 with
        | none => none
        | some (right, q2) =>
            build_loop
              (q2 ++ [HuffmanNode.internal (left.freq + right.freq) (some left) (some right)])
termination_by q.length
decreasing_by
  have h1 := extractMin_length hm
  have h2 := extractMin_length hm2
  simp only [List.length_append, List.length_cons, List.length_nil]
  omega

/-- `build_huffman_tree`: raises when no frequencies are available, otherwise
runs the greedy merge on one leaf per `(char, freq)` pair. -/
def build_huffman_tree (freqs : List (Char × Nat)) : Except String (Option HuffmanNode) :=
  if freqs.isEmpty then
    .error "No hay frecuencias calculadas. Ejecute calculate_frequencies primero."
  else
    .ok (build_loop (freqs.map fun cf => HuffmanNode.leaf (.sym cf.1) cf.2))

/-- `self.codes[node.char] = code`: Python dict assignment on an
insertion-ordered association list (update in place, else append). -/
def dictInsert (d : List (Tok × List Bool)) (k : Tok) (v : List Bool) :
    List (Tok × List Bool) :=
  match d with
  | [] => [(k, v)]
  | (k', v') :: rest => if k' = k then (k', v) :: rest else (k', v') :: dictInsert rest k v

/-- `self.codes[char]`: Python dict lookup, `KeyError` when absent. -/
def dictGet (d : List (Tok × List Bool)) (k : Tok) : Except String (List Bool) :=
  match d with
  | [] => .error "KeyError"
  | (k', v) :: rest => if k' = k then .ok v else dictGet rest k

/-- The recursive body of `generate_codes` (the `node is not None` path),
threading the `self.codes` dict.  A leaf stores `code if code else "0"`;
an internal node recurses into whichever children exist, left first. -/
def gen_codes_aux : HuffmanNode → List Bool → List (Tok × List Bool) → List (Tok × List Bool)
  | .leaf c _, code, codes => dictInsert codes c (if code.isEmpty then [false] else code)
  | .internal _ none none, _, codes => codes
  | .internal _ (some l) none, code, codes => gen_codes_aux l (code ++ [false]) codes
  | .internal _ none (some r), code, codes => gen_codes_aux r (code ++ [true]) codes
  | .internal _ (some l) (some r), code, codes =>
      gen_codes_aux r (code ++ [true]) (gen_codes_aux l (code ++ [false]) codes)

/-- Top-level `generate_codes()` call (`node=None`): raises when there is no
tree, otherwise resets `self.codes = {}` and walks the tree.  `priorCodes` is
the compressor's `self.codes` dict before the call; the reset discards it. -/
def generate_codes (tree : Option HuffmanNode) (priorCodes : List (Tok × List Bool)) :
    Except String (List (Tok × List Bool)) :=
  match tree with
  | none => .error "No hay arbol de Huffman. Ejecute build_huffman_tree primero."
  | some t =>
      let _ := priorCodes
      .ok (gen_codes_aux t [] [])

/-- `serialize_tree` on a node: `[True, char]` for a leaf, else `[False]`
followed by the serializations of whichever children exist. -/
def serialize_tree : HuffmanNode → List Tok
  | .leaf c _ => [Tok.flag true, c]
  | .internal _ none none => [Tok.flag false]
  | .internal _ (some l) none => Tok.flag false :: serialize_tree l
  | .internal _ none (some r) => Tok.flag false :: serialize_tree r
  | .internal _ (some l) (some r) => Tok.flag false :: (serialize_tree l ++ serialize_tree r)

/-- `deserialize_tree`, with the consumed-remainder length bound carried in a
subtype so the nested recursion on the remainder is well-founded.  The error
is Python's `IndexError` on `serialized[1]` when a truthy marker is last. -/
def deser_aux : (s : List Tok) →
    Except String (Option HuffmanNode × { r : List Tok // r.length ≤ s.length })
  | [] => .ok (none, ⟨[], Nat.le_refl _⟩)
  | t :: rest =>
      if t.truthy then
        match rest with
        | [] => .error "IndexError: list index out of range"
        | c :: rest2 =>
            .ok (some (.leaf c 0), ⟨rest2, by simp [List.length_cons]; omega⟩)
      else
        match deser_aux rest with
        | .error e => .error e
        | .ok (ln, ⟨rem, hrem⟩) =>
            match deser_aux rem with
            | .error e => .error e
            | .ok (rn, ⟨rem2, hrem2⟩) =>
                .ok (some (.internal 0 ln rn),
                     ⟨rem2, by simp only [List.length_cons]; omega⟩)
termination_by s => s.length
decreasing_by
  · simp only [List.length_cons]; omega
  · simp only [List.length_cons]; omega

/-- `deserialize_tree(serialized)` returning `(node, remaining)`. -/
def deserialize_tree (s : List Tok) : Except String (Option HuffmanNode × List Tok) :=
  (deser_aux s).map fun p => (p.1, p.2.val)

/-- `int(byte, 2)` on an 8-character slice of '0'/'1' characters. -/
def bitsToNat (bits : List Bool) : Nat :=
  bits.foldl (fun n b => 2 * n + (if b then 1 else 0)) 0

/-- The `for i in range(0, len(padded_text), 8)` packing loop. -/
def packBytes : List Bool → List Nat
  | [] => []
  | b :: rest => bitsToNat ((b :: rest).take 8) :: packBytes ((b :: rest).drop 8)
termination_by l => l.length
decreasing_by simp only [List.length_cons, List.length_drop]; omega

/-- `bin(n)[2:]`: the binary digits of `n`, MSB first, `[false]` for 0. -/
def natToBits (n : Nat) : List Bool :=
  if h : n < 2 then [n == 1] else natToBits (n / 2) ++ [n % 2 == 1]
termination_by n
decreasing_by omega

/-- `bin(byte)[2:].zfill(8)`. -/
def byteToBits (n : Nat) : List Bool :=
  let raw := natToBits n
  List.replicate (8 - raw.length) false ++ raw

/-- The `for char in text: encoded_text += self.codes[char]` loop. -/
def encode_text (codes : List (Tok × List Bool)) : List Char → Except String (List Bool)
  | [] => .ok []
  | c :: rest => do
      let code ← dictGet codes (Tok.sym c)
      let tail ← encode_text codes rest
      .ok (code ++ tail)

/-- The artifacts `compress` persists: the packed payload (`.huff` bytes), the
serialized tree and the padding count (the `.hufftree` pickle). -/
structure CompressResult where
  payload : List Nat
  tree_data : List Tok
  padding : Nat
deriving DecidableEq, Repr

/-- `compress`, file I/O stripped: frequency count, tree build, code
generation, bit concatenation, zero-padding to a byte boundary, byte packing,
tree serialization. -/
def compress (text : List Char) : Except String CompressResult := do
  let freqs := calculate_frequencies text
  let tree ← build_huffman_tree freqs
  let codes ← generate_codes tree []
  let encoded ← encode_text codes text
  let padding := if encoded.length % 8 ≠ 0 then 8 - encoded.length % 8 else 0
  let padded := encoded ++ List.replicate padding false
  let payload := packBytes padded
  match tree with
  | none => .error "No hay arbol de Huffman. Ejecute build_huffman_tree primero."
  | some root => .ok ⟨payload, serialize_tree root, padding⟩

/-- The decoding walk of `decompress`: one bit per step, `None` child access
is Python's `AttributeError`; reaching a leaf emits its char and resets the
walk to the root; leftover bits at the end are silently ignored. -/
def decode_loop (root : Option HuffmanNode) :
    List Bool → Option HuffmanNode → List Tok → Except String (List Tok)
  | [], _, acc => .ok acc
  | _ :: _, none, _ =>
      .error "AttributeError: NoneType object has no attribute left"
  | bit :: rest, some node, acc =>
      match node.childFor bit with
      | none => .error "AttributeError: NoneType object has no attribute is_leaf"
      | some (.leaf c f) =>
          let _ := f
          decode_loop root rest root (acc ++ [c])
      | some (.internal f l r) => decode_loop root rest (some (.internal f l r)) acc

/-- `decompress`, file I/O stripped: rebuild the tree from the serialized
tokens, expand the payload bytes to bits (MSB first), discard the padding
bits, and run the decoding walk. -/
def decompress (byte_data : List Nat) (serialized : List Tok) (padding : Nat) :
    Except String (List Tok) := do
  let (root, _) ← deserialize_tree serialized
  let bits := (byte_data.map byteToBits).flatten
  let bits := if padding ≠ 0 then bits.take (bits.length - padding) else bits
  decode_loop root bits root []

/-- `decompress(compress(text))`: the round-trip pipeline. -/
def roundtrip (text : List Char) : Except String (List Tok) := do
  let r ← compress text
  decompress r.payload r.tree_data r.padding

/-! ## Unfolding equations for the well-founded recursions -/

theorem build_loop_nil : build_loop [] = none := by
  rw [build_loop]; rfl

theorem build_loop_single (t : HuffmanNode) : build_loop [t] = some t := by
  rw [build_loop]; rfl

theorem build_loop_step {q : List HuffmanNode} (h : ¬ q.length ≤ 1)
    {l r : HuffmanNode} {q1 q2 : List HuffmanNode}
    (h1 : extractMin q = some (l, q1)) (h2 : extractMin q1 = some (r, q2)) :
    build_loop q =
      build_loop (q2 ++ [HuffmanNode.internal (l.freq + r.freq) (some l) (some r)]) := by
  rw [build_loop]
  simp only [h, dif_neg, not_false_iff]
  split
  · rename_i heq; rw [h1] at heq; cases heq
  · rename_i l' q1' heq
    rw [h1] at heq
    cases heq
    split
    · rename_i heq2; rw [h2] at heq2; cases heq2
    · rename_i r' q2' heq2
      rw [h2] at heq2
      cases heq2
      rfl

theorem build_loop_cons2 (a b : HuffmanNode) (rest : List HuffmanNode) :
    build_loop (a :: b :: rest) =
      match extractMin (a :: b :: rest) with
      | none => none
      | some (l, q1) =>
          match extractMin q1 with
          | none => none
          | some (r, q2) =>
              build_loop (q2 ++ [HuffmanNode.internal (l.freq + r.freq) (some l) (some r)]) := by
  have hlen : ¬ (a :: b :: rest).length ≤ 1 := by simp [List.length_cons]
  cases hm : extractMin (a :: b :: rest) with
  | none =>
      exfalso
      have hs := extractMin_isSome a (b :: rest)
      rw [hm] at hs; simp at hs
  | some p =>
      obtain ⟨l, q1⟩ := p
      have hq1 : q1.length + 1 = (a :: b :: rest).length := extractMin_length hm
      cases q1 with
      | nil => simp [List.length_cons] at hq1
      | cons c cs =>
          cases hm2 : extractMin (c :: cs) with
          | none =>
              exfalso
              have hs := extractMin_isSome c cs
              rw [hm2] at hs; simp at hs
          | some p2 =>
              obtain ⟨r, q2⟩ := p2
              rw [build_loop_step hlen hm hm2]
              simp [hm2]

theorem packBytes_nil : packBytes [] = [] := by rw [packBytes]

theorem packBytes_cons (b : Bool) (rest : List Bool) :
    packBytes (b :: rest) =
      bitsToNat ((b :: rest).take 8) :: packBytes ((b :: rest).drop 8) := by
  rw [packBytes]

theorem natToBits_small {n : Nat} (h : n < 2) : natToBits n = [n == 1] := by
  rw [natToBits]; simp [h]

theorem natToBits_big {n : Nat} (h : ¬ n < 2) :
    natToBits n = natToBits (n / 2) ++ [n % 2 == 1] := by
  rw [natToBits]; simp [h]

theorem deserialize_nil : deserialize_tree [] = .ok (none, []) := by
  rw [deserialize_tree, deser_aux]; rfl

theorem deserialize_truthy_pair (t c : Tok) (rest : List Tok) (h : t.truthy) :
    deserialize_tree (t :: c :: rest) = .ok (some (.leaf c 0), rest) := by
  rw [deserialize_tree, deser_aux]
  simp [h, Except.map]

theorem deserialize_truthy_last (t : Tok) (h : t.truthy) :
    deserialize_tree [t] = .error "IndexError: list index out of range" := by
  rw [deserialize_tree, deser_aux]
  simp [h, Except.map]

theorem deserialize_tree_internal (rest : List Tok) :
    deserialize_tree (Tok.flag false :: rest) =
      match deserialize_tree rest with
      | .error e => .error e
      | .ok (ln, rem) =>
          match deserialize_tree rem with
          | .error e => .error e
          | .ok (rn, rem2) => .ok (some (.internal 0 ln rn), rem2) := by
  rw [deserialize_tree, deser_aux.eq_def]
  simp only [Tok.truthy, Bool.false_eq_true, if_false]
  rw [deserialize_tree]
  cases hd : deser_aux rest with
  | error e => simp [deserialize_tree, hd, Except.map]
  | ok p =>
      obtain ⟨ln, rem, hrem⟩ := p
      simp only [Except.map]
      cases hd2 : deser_aux rem with
      | error e => simp [deserialize_tree, hd2, Except.map]
      | ok p2 =>
          obtain ⟨rn, rem2, hrem2⟩ := p2
          simp [deserialize_tree, hd2, Except.map]

/-- C2 counterexample: `compress` on the empty input raises the
no-frequencies `ValueError` instead of returning an empty payload. -/
theorem compress_empty_fails :
    compress [] =
      .error "No hay frecuencias calculadas. Ejecute calculate_frequencies primero." := by
  simp [compress, calculate_frequencies, build_huffman_tree, bind, Except.bind]

/-- C2 amended: `compress("")` fails with the InvalidState error raised by
`build_huffman_tree` (it does not short-circuit), while `decompress` applied
to an empty payload with padding 0 and an empty serialized tree returns the
empty string. -/
theorem compress_empty_raises_and_decompress_empty_ok :
    compress [] =
      .error "No hay frecuencias calculadas. Ejecute calculate_frequencies primero." ∧
    decompress [] [] 0 = .ok [] := by
  constructor
  · simp [compress, calculate_frequencies, build_huffman_tree, bind, Except.bind]
  · simp [decompress, deserialize_nil, bind, Except.bind, decode_loop]

/-- C3: on input "aaaa" the pipeline produces the one-entry code table
mapping 'a' to "0", a payload of exactly one byte with 4 padding bits — but
`decompress` then crashes with an `AttributeError` while walking the
root-only tree (`leaf.left` is `None`), instead of emitting 'a' per bit. -/
theorem single_symbol_pipeline_crashes :
    compress ['a', 'a', 'a', 'a'] =
      .ok ⟨[0], [Tok.flag true, Tok.sym 'a'], 4⟩ ∧
    generate_codes (some (.leaf (.sym 'a') 4)) [] = .ok [(.sym 'a', [false])] ∧
    decompress [0] [Tok.flag true, Tok.sym 'a'] 4 =
      .error "AttributeError: NoneType object has no attribute is_leaf" := by
  refine ⟨?_, ?_, ?_⟩
  · simp [compress, calculate_frequencies, bumpCount, build_huffman_tree,
      build_loop_single, generate_codes, gen_codes_aux, dictInsert, encode_text,
      dictGet, packBytes_cons, packBytes_nil, bitsToNat, serialize_tree,
      HuffmanNode.freq, bind, Except.bind]
  · simp [generate_codes, gen_codes_aux, dictInsert]
  · simp [decompress, deserialize_truthy_pair, Tok.truthy, byteToBits,
      natToBits_small, bind, Except.bind, decode_loop, HuffmanNode.childFor]

/-- C4: feeding `deserialize_tree` an Internal-node marker with no following
tokens (or only one following subtree) silently returns a truncated tree with
`None` children and no error, contrary to the required `InvalidFormat`. -/
theorem deserialize_truncated_internal_silent :
    deserialize_tree [Tok.flag false] = .ok (some (.internal 0 none none), []) ∧
    deserialize_tree [Tok.flag false, Tok.flag true, Tok.sym 'a'] =
      .ok (some (.internal 0 (some (.leaf (.sym 'a') 0)) none), []) := by
  constructor
  · simp [deserialize_tree_internal, deserialize_nil]
  · simp [deserialize_tree_internal, deserialize_truthy_pair, deserialize_nil, Tok.truthy]

/-- C5: decoding a payload whose bit stream ends mid-tree (a single '0' bit
against a depth-2 tree) silently returns the partial text instead of a
`DecodingError`: the leftover walk is dropped. -/
theorem decode_midtree_exhaustion_silent :
    decompress [0]
      [Tok.flag false, Tok.flag false, Tok.flag true, Tok.sym 'a',
       Tok.flag true, Tok.sym 'b', Tok.flag true, Tok.sym 'c'] 7 = .ok [] := by
  simp [decompress, deserialize_tree_internal, deserialize_truthy_pair,
    deserialize_nil, Tok.truthy, byteToBits, natToBits_small, bind, Except.bind,
    decode_loop, HuffmanNode.childFor]

/-- C9: whenever `compress` succeeds, the recorded padding count is in
[0, 7]; it is 0 exactly when the concatenated raw bit-string length is a
multiple of 8, and otherwise equals 8 minus that length mod 8; the payload
is the raw bits extended by exactly that many zero bits, packed. -/
theorem compress_padding_bound (text : List Char) (r : CompressResult)
    (h : compress text = .ok r) :
    r.padding ≤ 7 ∧
    ∃ (tree : Option HuffmanNode) (codes : List (Tok × List Bool)) (enc : List Bool),
      build_huffman_tree (calculate_frequencies text) = .ok tree ∧
      generate_codes tree [] = .ok codes ∧
      encode_text codes text = .ok enc ∧
      r.padding = (if enc.length % 8 ≠ 0 then 8 - enc.length % 8 else 0) ∧
      r.payload = packBytes (enc ++ List.replicate r.padding false) ∧
      (r.padding = 0 ↔ enc.length % 8 = 0) ∧
      (enc.length % 8 ≠ 0 → r.padding = 8 - enc.length % 8) := by
  unfold compress at h
  dsimp only at h
  cases hb : build_huffman_tree (calculate_frequencies text) with
  | error e => rw [hb] at h; simp [bind, Except.bind] at h
  | ok tree =>
      rw [hb] at h
      simp only [bind, Except.bind] at h
      cases hc : generate_codes tree [] with
      | error e => rw [hc] at h; simp at h
      | ok codes =>
          rw [hc] at h
          dsimp only at h
          cases he : encode_text codes text with
          | error e => rw [he] at h; simp at h
          | ok enc =>
              rw [he] at h
              dsimp only at h
              cases tree with
              | none => simp at h
              | some root =>
                  simp only [Except.ok.injEq] at h
                  subst h
                  refine ⟨?_, some root, codes, enc, rfl, hc, he, ?_, rfl, ?_, ?_⟩
                  · dsimp only
                    split <;> omega
                  · dsimp only
                  · dsimp only
                    constructor
                    · intro hp
                      by_contra hne
                      rw [if_pos hne] at hp
                      omega
                    · intro hz
                      simp [hz]
                  · intro hne
                    dsimp only
                    rw [if_pos hne]

theorem compress_padding_bound_witness :
    (⟨[64], [Tok.flag false, Tok.flag true, Tok.sym 'a', Tok.flag true, Tok.sym 'b'], 6⟩ :
        CompressResult).padding ≤ 7 ∧
    ∃ (tree : Option HuffmanNode) (codes : List (Tok × List Bool)) (enc : List Bool),
      build_huffman_tree (calculate_frequencies ['a', 'b']) = .ok tree ∧
      generate_codes tree [] = .ok codes ∧
      encode_text codes ['a', 'b'] = .ok enc ∧
      (6 : Nat) = (if enc.length % 8 ≠ 0 then 8 - enc.length % 8 else 0) ∧
      (⟨[64], [Tok.flag false, Tok.flag true, Tok.sym 'a', Tok.flag true, Tok.sym 'b'], 6⟩ :
        CompressResult).payload = packBytes (enc ++ List.replicate 6 false) ∧
      ((6 : Nat) = 0 ↔ enc.length % 8 = 0) ∧
      (enc.length % 8 ≠ 0 → (6 : Nat) = 8 - enc.length % 8) :=
  compress_padding_bound ['a', 'b'] _
    (by simp [compress, calculate_frequencies, bumpCount, build_huffman_tree,
      build_loop_cons2, build_loop_single, extractMin, generate_codes, gen_codes_aux,
      dictInsert, encode_text, dictGet, packBytes_cons, packBytes_nil, bitsToNat,
      serialize_tree, HuffmanNode.freq, bind, Except.bind])

/-! ## Proof-side helpers: leaf paths, strictness -/

/-- Induction principle for `HuffmanNode` through the `Option` children. -/
theorem HuffmanNode.indOn {P : HuffmanNode → Prop}
    (hleaf : ∀ c f, P (.leaf c f))
    (hint : ∀ f l r, (∀ t, l = some t → P t) → (∀ t, r = some t → P t) →
      P (.internal f l r)) :
    ∀ t, P t := by
  have H : ∀ n t, sizeOf t ≤ n → P t := by
    intro n
    induction n with
    | zero =>
        intro t h
        cases t with
        | leaf c f => exact hleaf c f
        | internal f l r =>
            exfalso
            simp only [HuffmanNode.internal.sizeOf_spec] at h
            omega
    | succ n ih =>
        intro t h
        cases t with
        | leaf c f => exact hleaf c f
        | internal f l r =>
            apply hint
            · intro t' hl
              subst hl
              apply ih
              simp only [HuffmanNode.internal.sizeOf_spec, Option.some.sizeOf_spec] at h
              omega
            · intro t' hr
              subst hr
              apply ih
              simp only [HuffmanNode.internal.sizeOf_spec, Option.some.sizeOf_spec] at h
              omega
  exact fun t => H (sizeOf t) t (Nat.le_refl _)

/-- All leaves of a tree in left-to-right order: (char, freq, root-to-leaf
path), where the path is the bit string of the descent ('0' = left). -/
def leafPaths : HuffmanNode → List (Tok × Nat × List Bool)
  | .leaf c f => [(c, f, [])]
  | .internal _ none none => []
  | .internal _ (some l) none =>
      (leafPaths l).map fun e => (e.1, e.2.1, false :: e.2.2)
  | .internal _ none (some r) =>
      (leafPaths r).map fun e => (e.1, e.2.1, true :: e.2.2)
  | .internal _ (some l) (some r) =>
      ((leafPaths l).map fun e => (e.1, e.2.1, false :: e.2.2)) ++
      ((leafPaths r).map fun e => (e.1, e.2.1, true :: e.2.2))

/-- The leaf symbols of a tree, left to right. -/
def leafChars (t : HuffmanNode) : List Tok := (leafPaths t).map fun e => e.1

theorem leafChars_leaf (c : Tok) (f : Nat) : leafChars (.leaf c f) = [c] := rfl

theorem leafChars_ss (f : Nat) (l r : HuffmanNode) :
    leafChars (.internal f (some l) (some r)) = leafChars l ++ leafChars r := by
  simp only [leafChars, leafPaths, List.map_append, List.map_map]
  congr 1
  all_goals first
    | rfl
    | exact List.map_congr_left fun e _ => rfl

theorem leafChars_sn (f : Nat) (l : HuffmanNode) :
    leafChars (.internal f (some l) none) = leafChars l := by
  simp only [leafChars, leafPaths, List.map_map]
  exact List.map_congr_left fun e _ => rfl

theorem leafChars_ns (f : Nat) (r : HuffmanNode) :
    leafChars (.internal f none (some r)) = leafChars r := by
  simp only [leafChars, leafPaths, List.map_map]
  exact List.map_congr_left fun e _ => rfl

/-- A strict binary tree: every internal node has both children.  Every tree
the merge loop builds is strict. -/
def strict : HuffmanNode → Bool
  | .leaf _ _ => true
  | .internal _ (some l) (some r) => strict l && strict r
  | .internal _ _ _ => false

/-- The tree `deserialize_tree` rebuilds from `serialize_tree t`: same shape
and chars, frequencies zeroed. -/
def stripFreq : HuffmanNode → HuffmanNode
  | .leaf c _ => .leaf c 0
  | .internal _ none none => .internal 0 none none
  | .internal _ (some l) none => .internal 0 (some (stripFreq l)) none
  | .internal _ none (some r) => .internal 0 none (some (stripFreq r))
  | .internal _ (some l) (some r) =>
      .internal 0 (some (stripFreq l)) (some (stripFreq r))

theorem dictInsert_fresh {d : List (Tok × List Bool)} {k : Tok} (v : List Bool)
    (h : k ∉ d.map Prod.fst) : dictInsert d k v = d ++ [(k, v)] := by
  induction d with
  | nil => rfl
  | cons e rest ih =>
      obtain ⟨k', v'⟩ := e
      simp only [List.map_cons, List.mem_cons] at h
      push_neg at h
      have hne : ¬ (k' = k) := fun hh => h.1 hh.symm
      simp only [dictInsert, if_neg hne, List.cons_append]
      rw [ih h.2]

/-- `gen_codes_aux` with a non-empty accumulated code and fresh dict keys
appends one entry per leaf, in traversal order, valued by the accumulated
code extended with the leaf's path. -/
theorem gen_codes_aux_eq (t : HuffmanNode) :
    ∀ (code : List Bool) (d : List (Tok × List Bool)),
      code ≠ [] → (leafChars t).Nodup →
      (∀ k, k ∈ d.map Prod.fst → k ∉ leafChars t) →
      gen_codes_aux t code d =
        d ++ (leafPaths t).map fun e => (e.1, code ++ e.2.2) := by
  induction t using HuffmanNode.indOn with
  | hleaf c f =>
      intro code d hcode _ hdisj
      simp only [gen_codes_aux, leafPaths, List.map_cons, List.map_nil]
      have hni : c ∉ d.map Prod.fst := by
        intro hc
        exact hdisj c hc (by simp [leafChars, leafPaths])
      rw [dictInsert_fresh _ hni]
      simp [List.isEmpty_eq_true, hcode]
  | hint f l r ihl ihr =>
      intro code d hcode hnd hdisj
      cases l with
      | none =>
          cases r with
          | none => simp [gen_codes_aux, leafPaths]
          | some rn =>
              rw [leafChars_ns] at hnd hdisj
              simp only [gen_codes_aux, leafPaths, List.map_map]
              rw [ihr rn rfl (code ++ [true]) d (by simp) hnd hdisj]
              congr 1
              apply List.map_congr_left
              intro e _
              simp [Function.comp, List.append_assoc]
      | some ln =>
          cases r with
          | none =>
              rw [leafChars_sn] at hnd hdisj
              simp only [gen_codes_aux, leafPaths, List.map_map]
              rw [ihl ln rfl (code ++ [false]) d (by simp) hnd hdisj]
              congr 1
              apply List.map_congr_left
              intro e _
              simp [Function.comp, List.append_assoc]
          | some rn =>
              rw [leafChars_ss] at hnd hdisj
              rw [List.nodup_append] at hnd
              obtain ⟨hndl, hndr, hdlr⟩ := hnd
              simp only [gen_codes_aux, leafPaths, List.map_map]
              rw [ihl ln rfl (code ++ [false]) d (by simp) hndl
                (fun k hk => fun hmem =>
                  hdisj k hk (List.mem_append.2 (Or.inl hmem)))]
              rw [ihr rn rfl (code ++ [true]) _ (by simp) hndr ?_]
              · rw [List.append_assoc]
                congr 1
                rw [List.map_append, List.map_map, List.map_map]
                congr 1
                · apply List.map_congr_left
                  intro e _
                  simp [Function.comp, List.append_assoc]
                · apply List.map_congr_left
                  intro e _
                  simp [Function.comp, List.append_assoc]
              · intro k hk
                rw [List.map_append, List.mem_append] at hk
                rcases hk with hk | hk
                · exact fun hmem => hdisj k hk (List.mem_append.2 (Or.inr hmem))
                · intro hmem
                  rw [List.map_map] at hk
                  have hkl : k ∈ leafChars ln := by
                    simpa [leafChars, Function.comp] using hk
                  exact hdlr hkl hmem

theorem generate_codes_leaf_root (c : Tok) (f : Nat)
    (prior : List (Tok × List Bool)) :
    generate_codes (some (.leaf c f)) prior = .ok [(c, [false])] := by
  simp [generate_codes, gen_codes_aux, dictInsert]

theorem generate_codes_internal_root (f : Nat) (l r : Option HuffmanNode)
    (prior : List (Tok × List Bool))
    (hnd : (leafChars (.internal f l r)).Nodup) :
    generate_codes (some (.internal f l r)) prior =
      .ok ((leafPaths (.internal f l r)).map fun e => (e.1, e.2.2)) := by
  simp only [generate_codes, Except.ok.injEq]
  cases l with
  | none =>
      cases r with
      | none => simp [gen_codes_aux, leafPaths]
      | some rn =>
          rw [leafChars_ns] at hnd
          simp only [gen_codes_aux, List.nil_append, leafPaths, List.map_map]
          rw [gen_codes_aux_eq rn [true] [] (by simp) hnd (by simp)]
          simp only [List.nil_append]
          apply List.map_congr_left
          intro e _
          rfl
  | some ln =>
      cases r with
      | none =>
          rw [leafChars_sn] at hnd
          simp only [gen_codes_aux, List.nil_append, leafPaths, List.map_map]
          rw [gen_codes_aux_eq ln [false] [] (by simp) hnd (by simp)]
          simp only [List.nil_append]
          apply List.map_congr_left
          intro e _
          rfl
      | some rn =>
          rw [leafChars_ss] at hnd
          rw [List.nodup_append] at hnd
          obtain ⟨hndl, hndr, hdlr⟩ := hnd
          simp only [gen_codes_aux, List.nil_append, leafPaths, List.map_append,
            List.map_map]
          rw [gen_codes_aux_eq ln [false] [] (by simp) hndl (by simp)]
          simp only [List.nil_append]
          rw [gen_codes_aux_eq rn [true] _ (by simp) hndr ?_]
          · congr 1
            all_goals first
              | rfl
              | exact List.map_congr_left fun e _ => rfl
          · intro k hk
            rw [List.map_map] at hk
            have hkl : k ∈ leafChars ln := by
              simpa [leafChars, Function.comp] using hk
            exact fun hmem => hdlr hkl hmem

theorem dictGet_of_mem {d : List (Tok × List Bool)}
    (hnd : (d.map Prod.fst).Nodup) {k : Tok} {v : List Bool}
    (hmem : (k, v) ∈ d) : dictGet d k = .ok v := by
  induction d with
  | nil => simp at hmem
  | cons e rest ih =>
      obtain ⟨k', v'⟩ := e
      simp only [List.map_cons, List.nodup_cons] at hnd
      rcases List.mem_cons.1 hmem with heq | hmem'
      · cases heq
        simp [dictGet]
      · have hne : k' ≠ k := by
          intro hh
          subst hh
          exact hnd.1 (List.mem_map.2 ⟨(k', v), hmem', rfl⟩)
        simp only [dictGet, if_neg hne]
        exact ih hnd.2 hmem'

theorem codes_keys (t : HuffmanNode) :
    ((leafPaths t).map fun e => (e.1, e.2.2)).map Prod.fst = leafChars t := by
  rw [List.map_map]
  exact List.map_congr_left fun e _ => rfl

/-- C10: a top-level call to `generate_codes` first resets `self.codes`, so
its result does not depend on the dict left over from a previous run, and
the returned mapping has exactly one entry per leaf of the current tree, in
traversal order — no stale keys survive. -/
theorem generate_codes_no_stale (tree : Option HuffmanNode)
    (p1 p2 : List (Tok × List Bool)) :
    generate_codes tree p1 = generate_codes tree p2 ∧
    (∀ t codes, tree = some t → (leafChars t).Nodup →
      generate_codes tree p1 = .ok codes →
      codes.map Prod.fst = leafChars t) := by
  constructor
  · cases tree <;> rfl
  · intro t codes htree hnd hok
    subst htree
    cases t with
    | leaf c f =>
        rw [generate_codes_leaf_root] at hok
        cases hok
        simp [leafChars_leaf]
    | internal f l r =>
        rw [generate_codes_internal_root f l r p1 hnd] at hok
        cases hok
        exact codes_keys _

theorem generate_codes_no_stale_witness :
    (generate_codes
        (some (.internal 2 (some (.leaf (.sym 'a') 1)) (some (.leaf (.sym 'b') 1))))
        [(Tok.sym 'z', [true])] =
      generate_codes
        (some (.internal 2 (some (.leaf (.sym 'a') 1)) (some (.leaf (.sym 'b') 1))))
        []) ∧
    (∀ t codes,
      (some (.internal 2 (some (.leaf (.sym 'a') 1)) (some (.leaf (.sym 'b') 1)))
          : Option HuffmanNode) = some t →
      (leafChars t).Nodup →
      generate_codes
        (some (.internal 2 (some (.leaf (.sym 'a') 1)) (some (.leaf (.sym 'b') 1))))
        [(Tok.sym 'z', [true])] = .ok codes →
      codes.map Prod.fst = leafChars t) :=
  generate_codes_no_stale
    (some (.internal 2 (some (.leaf (.sym 'a') 1)) (some (.leaf (.sym 'b') 1))))
    [(Tok.sym 'z', [true])] []

/-! ## The merge loop: extraction characterization and invariants -/

/-- Full characterization of `extractMin`: it removes the leftmost minimum,
every element before it is strictly heavier, every element after at least as
heavy. -/
theorem extractMin_char :
    ∀ {q : List HuffmanNode} {m rest}, extractMin q = some (m, rest) →
      ∃ q₁ q₂, q = q₁ ++ m :: q₂ ∧ rest = q₁ ++ q₂ ∧
        (∀ u ∈ q₁, m.freq < u.freq) ∧ (∀ u ∈ q₂, m.freq ≤ u.freq) := by
  intro q
  induction q with
  | nil => intro m rest h; simp [extractMin] at h
  | cons t ts ih =>
      intro m rest h
      simp only [extractMin] at h
      cases hm : extractMin ts with
      | none =>
          rw [hm] at h
          cases ts with
          | nil =>
              simp only [Option.some.injEq, Prod.mk.injEq] at h
              exact ⟨[], [], by simp [h.1], by simp [← h.2], by simp, by simp⟩
          | cons b bs =>
              exfalso
              have hs := extractMin_isSome b bs
              rw [hm] at hs
              simp at hs
      | some p =>
          rw [hm] at h
          obtain ⟨m', rest'⟩ := p
          obtain ⟨t₁, t₂, hts, hrest', hpre, hsuf⟩ := ih hm
          by_cases hle : t.freq ≤ m'.freq
          · simp only [hle, if_true, Option.some.injEq, Prod.mk.injEq] at h
            obtain ⟨hm1, hr1⟩ := h
            subst hm1
            refine ⟨[], ts, by simp, by simp [← hr1], by simp, ?_⟩
            intro u hu
            rw [hts] at hu
            rcases List.mem_append.1 hu with hu | hu
            · exact le_trans hle (le_of_lt (hpre u hu))
            · rcases List.mem_cons.1 hu with rfl | hu
              · exact hle
              · exact le_trans hle (hsuf u hu)
          · simp only [hle, if_false, Option.some.injEq, Prod.mk.injEq] at h
            obtain ⟨hm1, hr1⟩ := h
            subst hm1
            refine ⟨t :: t₁, t₂, by simp [hts], by simp [← hr1, hrest'], ?_, hsuf⟩
            intro u hu
            rcases List.mem_cons.1 hu with rfl | hu
            · omega
            · exact hpre u hu

theorem extractMin_mem {q : List HuffmanNode} {m rest}
    (h : extractMin q = some (m, rest)) : m ∈ q := by
  obtain ⟨q₁, q₂, hq, _, _, _⟩ := extractMin_char h
  rw [hq]
  simp

theorem extractMin_subset {q : List HuffmanNode} {m rest}
    (h : extractMin q = some (m, rest)) : ∀ u ∈ rest, u ∈ q := by
  obtain ⟨q₁, q₂, hq, hrest, _, _⟩ := extractMin_char h
  intro u hu
  rw [hrest] at hu
  rw [hq]
  rcases List.mem_append.1 hu with hu | hu
  · exact List.mem_append.2 (Or.inl hu)
  · exact List.mem_append.2 (Or.inr (List.mem_cons.2 (Or.inr hu)))

theorem extractMin_min {q : List HuffmanNode} {m rest}
    (h : extractMin q = some (m, rest)) : ∀ u ∈ q, m.freq ≤ u.freq := by
  obtain ⟨q₁, q₂, hq, _, hpre, hsuf⟩ := extractMin_char h
  intro u hu
  rw [hq] at hu
  rcases List.mem_append.1 hu with hu | hu
  · exact le_of_lt (hpre u hu)
  · rcases List.mem_cons.1 hu with rfl | hu
    · exact le_refl _
    · exact hsuf u hu

/-- Every tree the merge loop returns is strict, provided the queue holds
only strict trees (initially: bare leaves). -/
theorem build_loop_strict :
    ∀ (n : Nat) (q : List HuffmanNode), q.length ≤ n →
      (∀ u ∈ q, strict u) → ∀ t, build_loop q = some t → strict t := by
  intro n
  induction n with
  | zero =>
      intro q hlen hall t hb
      have : q = [] := List.length_eq_zero.1 (Nat.le_zero.1 hlen)
      subst this
      rw [build_loop_nil] at hb
      cases hb
  | succ n ih =>
      intro q hlen hall t hb
      by_cases hq : q.length ≤ 1
      · rw [build_loop] at hb
        rw [dif_pos hq] at hb
        cases q with
        | nil => simp at hb
        | cons a as =>
            simp only [List.head?] at hb
            cases hb
            exact hall t (by simp)
      · rw [build_loop] at hb
        rw [dif_neg hq] at hb
        split at hb
        · cases hb
        · rename_i l q1 hm
          split at hb
          · cases hb
          · rename_i r q2 hm2
            have h1 := extractMin_length hm
            have h2 := extractMin_length hm2
            apply ih (q2 ++ [HuffmanNode.internal (l.freq + r.freq) (some l) (some r)])
            · simp only [List.length_append, List.length_cons, List.length_nil]
              omega
            · intro u hu
              rcases List.mem_append.1 hu with hu | hu
              · exact hall u (extractMin_subset hm _ (extractMin_subset hm2 _ hu))
              · rcases List.mem_cons.1 hu with rfl | hu
                · have hsl : strict l := hall l (extractMin_mem hm)
                  have hsr : strict r :=
                    hall r (extractMin_subset hm _ (extractMin_mem hm2))
                  simp [strict, hsl, hsr]
                · simp at hu
            · exact hb

/-! ## Serialization fidelity -/

/-- Deserializing the serialization of a strict tree (followed by any
remaining tokens) rebuilds the tree with frequencies zeroed and returns the
remainder untouched. -/
theorem deserialize_serialize (t : HuffmanNode) :
    strict t → ∀ rest : List Tok,
      deserialize_tree (serialize_tree t ++ rest) = .ok (some (stripFreq t), rest) := by
  induction t using HuffmanNode.indOn with
  | hleaf c f =>
      intro _ rest
      simp only [serialize_tree, List.cons_append, List.nil_append]
      exact deserialize_truthy_pair _ c rest rfl
  | hint f l r ihl ihr =>
      intro hs rest
      cases l with
      | none => cases r <;> simp [strict] at hs
      | some ln =>
          cases r with
          | none => simp [strict] at hs
          | some rn =>
              simp only [strict, Bool.and_eq_true] at hs
              simp only [serialize_tree, List.cons_append, List.append_assoc]
              rw [deserialize_tree_internal]
              rw [ihl ln rfl hs.1 (serialize_tree rn ++ rest)]
              dsimp only
              rw [ihr rn rfl hs.2 rest]
              rfl

theorem gen_codes_aux_stripFreq (t : HuffmanNode) :
    ∀ (code : List Bool) (d : List (Tok × List Bool)),
      gen_codes_aux (stripFreq t) code d = gen_codes_aux t code d := by
  induction t using HuffmanNode.indOn with
  | hleaf c f => intro code d; rfl
  | hint f l r ihl ihr =>
      intro code d
      cases l with
      | none =>
          cases r with
          | none => rfl
          | some rn => simp only [stripFreq, gen_codes_aux, ihr rn rfl]
      | some ln =>
          cases r with
          | none => simp only [stripFreq, gen_codes_aux, ihl ln rfl]
          | some rn =>
              simp only [stripFreq, gen_codes_aux, ihl ln rfl, ihr rn rfl]

/-- C6: for every tree produced by the tree builder, deserializing its
serialization reconstructs a tree (the same shape with frequencies zeroed)
whose generated CodeTable is identical to that of the original tree. -/
theorem serialize_fidelity (freqs : List (Char × Nat)) (t : HuffmanNode)
    (hb : build_huffman_tree freqs = .ok (some t)) :
    deserialize_tree (serialize_tree t) = .ok (some (stripFreq t), []) ∧
    ∀ prior prior' : List (Tok × List Bool),
      generate_codes (some (stripFreq t)) prior = generate_codes (some t) prior' := by
  have hstrict : strict t := by
    unfold build_huffman_tree at hb
    split at hb
    · cases hb
    · simp only [Except.ok.injEq] at hb
      exact build_loop_strict (freqs.map fun cf =>
          HuffmanNode.leaf (.sym cf.1) cf.2).length _ (le_refl _)
        (by intro u hu
            obtain ⟨cf, _, rfl⟩ := List.mem_map.1 hu
            rfl)
        t hb
  constructor
  · have := deserialize_serialize t hstrict []
    simpa using this
  · intro prior prior'
    simp [generate_codes, gen_codes_aux_stripFreq]

theorem serialize_fidelity_witness :
    (deserialize_tree
        (serialize_tree (.internal 2 (some (.leaf (.sym 'a') 1)) (some (.leaf (.sym 'b') 1)))) =
      .ok (some (stripFreq (.internal 2 (some (.leaf (.sym 'a') 1)) (some (.leaf (.sym 'b') 1)))), [])) ∧
    ∀ prior prior' : List (Tok × List Bool),
      generate_codes
          (some (stripFreq (.internal 2 (some (.leaf (.sym 'a') 1)) (some (.leaf (.sym 'b') 1))))) prior =
        generate_codes
          (some (.internal 2 (some (.leaf (.sym 'a') 1)) (some (.leaf (.sym 'b') 1)))) prior' :=
  serialize_fidelity [('a', 1), ('b', 1)]
    (.internal 2 (some (.leaf (.sym 'a') 1)) (some (.leaf (.sym 'b') 1)))
    (by simp [build_huffman_tree, build_loop_cons2, build_loop_single, extractMin,
      HuffmanNode.freq])

/-! ## Leaf multiset of the built tree; prefix-freedom -/

/-- The (char, freq) pairs of a tree's leaves, left to right. -/
def nodeLeaves : HuffmanNode → List (Tok × Nat)
  | .leaf c f => [(c, f)]
  | .internal _ none none => []
  | .internal _ (some l) none => nodeLeaves l
  | .internal _ none (some r) => nodeLeaves r
  | .internal _ (some l) (some r) => nodeLeaves l ++ nodeLeaves r

theorem nodeLeaves_eq_leafPaths (t : HuffmanNode) :
    nodeLeaves t = (leafPaths t).map fun e => (e.1, e.2.1) := by
  induction t using HuffmanNode.indOn with
  | hleaf c f => rfl
  | hint f l r ihl ihr =>
      cases l with
      | none =>
          cases r with
          | none => rfl
          | some rn =>
              simp only [nodeLeaves, leafPaths, List.map_map, ihr rn rfl]
              exact List.map_congr_left fun e _ => rfl
      | some ln =>
          cases r with
          | none =>
              simp only [nodeLeaves, leafPaths, List.map_map, ihl ln rfl]
              exact List.map_congr_left fun e _ => rfl
          | some rn =>
              simp only [nodeLeaves, leafPaths, List.map_append, List.map_map,
                ihl ln rfl, ihr rn rfl]
              congr 1
              all_goals first
                | rfl
                | exact List.map_congr_left fun e _ => rfl

theorem leafChars_eq_nodeLeaves (t : HuffmanNode) :
    leafChars t = (nodeLeaves t).map Prod.fst := by
  rw [nodeLeaves_eq_leafPaths, List.map_map, leafChars]
  exact List.map_congr_left fun e _ => rfl

/-- The merge loop preserves the multiset of (char, freq) leaf pairs. -/
theorem build_loop_leaves :
    ∀ (n : Nat) (q : List HuffmanNode), q.length ≤ n →
      ∀ t, build_loop q = some t →
        ((q.map nodeLeaves).flatten : Multiset (Tok × Nat)) = (nodeLeaves t : Multiset (Tok × Nat)) := by
  intro n
  induction n with
  | zero =>
      intro q hlen _ hb
      have : q = [] := List.length_eq_zero.1 (Nat.le_zero.1 hlen)
      subst this
      rw [build_loop_nil] at hb
      cases hb
  | succ n ih =>
      intro q hlen t hb
      by_cases hq : q.length ≤ 1
      · rw [build_loop] at hb
        rw [dif_pos hq] at hb
        cases q with
        | nil => simp at hb
        | cons a as =>
            simp only [List.head?] at hb
            cases hb
            cases as with
            | nil => simp
            | cons b bs => simp [List.length_cons] at hq
      · rw [build_loop] at hb
        rw [dif_neg hq] at hb
        split at hb
        · cases hb
        · rename_i l q1 hm
          split at hb
          · cases hb
          · rename_i r q2 hm2
            have h1 := extractMin_length hm
            have h2 := extractMin_length hm2
            have hrec := ih (q2 ++ [HuffmanNode.internal (l.freq + r.freq) (some l) (some r)])
              (by simp only [List.length_append, List.length_cons, List.length_nil]; omega)
              t hb
            rw [← hrec]
            obtain ⟨q₁, q₂, hqeq, hrest, _, _⟩ := extractMin_char hm
            obtain ⟨r₁, r₂, hq1eq, hrest2, _, _⟩ := extractMin_char hm2
            subst hqeq
            subst hrest
            rw [hrest2]
            have hmid : ((List.map nodeLeaves (q₁ ++ q₂)).flatten : Multiset (Tok × Nat))
                = ((List.map nodeLeaves (r₁ ++ r :: r₂)).flatten : Multiset (Tok × Nat)) := by
              rw [hq1eq]
            have e1 : ((List.map nodeLeaves (q₁ ++ l :: q₂)).flatten : Multiset (Tok × Nat))
                = (nodeLeaves l : Multiset (Tok × Nat)) +
                  ((List.map nodeLeaves (q₁ ++ q₂)).flatten : Multiset (Tok × Nat)) := by
              simp only [List.map_append, List.map_cons, List.flatten_append,
                List.flatten_cons]
              rw [← Multiset.coe_add, ← Multiset.coe_add, ← Multiset.coe_add]
              abel
            have e2 : ((List.map nodeLeaves ((r₁ ++ r₂) ++
                  [HuffmanNode.internal (l.freq + r.freq) (some l) (some r)])).flatten :
                    Multiset (Tok × Nat))
                = (nodeLeaves l : Multiset (Tok × Nat)) +
                  ((List.map nodeLeaves (r₁ ++ r :: r₂)).flatten : Multiset (Tok × Nat)) := by
              simp only [List.map_append, List.map_cons, List.flatten_append,
                List.flatten_cons, List.map_nil, List.flatten_nil, List.append_nil,
                nodeLeaves]
              rw [← Multiset.coe_add, ← Multiset.coe_add, ← Multiset.coe_add,
                ← Multiset.coe_add, ← Multiset.coe_add]
              abel
            rw [e1, e2, hmid]

theorem initial_leaves_flatten (freqs : List (Char × Nat)) :
    (List.map nodeLeaves (freqs.map fun cf => HuffmanNode.leaf (.sym cf.1) cf.2)).flatten
      = freqs.map fun cf => (Tok.sym cf.1, cf.2) := by
  induction freqs with
  | nil => rfl
  | cons cf rest ih =>
      simp only [List.map_cons, List.flatten_cons, nodeLeaves, ih,
        List.cons_append, List.nil_append]

/-- The leaf (char, freq) multiset of the built tree is exactly the
frequency table with symbols wrapped. -/
theorem build_tree_leaves {freqs : List (Char × Nat)} {t : HuffmanNode}
    (hb : build_huffman_tree freqs = .ok (some t)) :
    (nodeLeaves t : Multiset (Tok × Nat)) =
      ((freqs.map fun cf => (Tok.sym cf.1, cf.2)) : Multiset (Tok × Nat)) := by
  unfold build_huffman_tree at hb
  split at hb
  · cases hb
  · simp only [Except.ok.injEq] at hb
    have := build_loop_leaves (freqs.map fun cf => HuffmanNode.leaf (.sym cf.1) cf.2).length
      _ (le_refl _) t hb
    rw [initial_leaves_flatten] at this
    exact this.symm

theorem build_tree_chars_perm {freqs : List (Char × Nat)} {t : HuffmanNode}
    (hb : build_huffman_tree freqs = .ok (some t)) :
    (leafChars t).Perm (freqs.map fun cf => Tok.sym cf.1) := by
  have h := build_tree_leaves hb
  rw [Multiset.coe_eq_coe] at h
  have := h.map Prod.fst
  rw [← leafChars_eq_nodeLeaves] at this
  simpa [List.map_map, Function.comp] using this

theorem build_tree_chars_nodup {freqs : List (Char × Nat)} {t : HuffmanNode}
    (hnd : (freqs.map Prod.fst).Nodup)
    (hb : build_huffman_tree freqs = .ok (some t)) :
    (leafChars t).Nodup := by
  have hperm := build_tree_chars_perm hb
  rw [hperm.nodup_iff]
  have : (freqs.map fun cf => Tok.sym cf.1) = (freqs.map Prod.fst).map Tok.sym := by
    rw [List.map_map]
    exact List.map_congr_left fun e _ => rfl
  rw [this]
  exact hnd.map (fun a b hab => Tok.sym.inj hab)

/-- Distinct symbols in a tree with no duplicated leaf symbols have
non-comparable root-to-leaf paths. -/
theorem leafPaths_not_pre (t : HuffmanNode) :
    (leafChars t).Nodup →
    ∀ c1 f1 p1 c2 f2 p2, (c1, f1, p1) ∈ leafPaths t → (c2, f2, p2) ∈ leafPaths t →
      c1 ≠ c2 → ¬ p1 <+: p2 := by
  induction t using HuffmanNode.indOn with
  | hleaf c f =>
      intro _ c1 f1 p1 c2 f2 p2 h1 h2 hne
      simp only [leafPaths, List.mem_singleton, Prod.mk.injEq] at h1 h2
      exact absurd (h1.1.trans h2.1.symm) hne
  | hint f l r ihl ihr =>
      intro hnd c1 f1 p1 c2 f2 p2 h1 h2 hne hpre
      cases l with
      | none =>
          cases r with
          | none => simp [leafPaths] at h1
          | some rn =>
              rw [leafChars_ns] at hnd
              simp only [leafPaths, List.mem_map, Prod.mk.injEq] at h1 h2
              obtain ⟨e1, he1, hc1, hf1, hp1⟩ := h1
              obtain ⟨e2, he2, hc2, hf2, hp2⟩ := h2
              subst hp1; subst hp2
              have := (List.cons_prefix_cons.1 hpre).2
              exact ihr rn rfl hnd e1.1 e1.2.1 e1.2.2 e2.1 e2.2.1 e2.2.2
                (by simpa using he1) (by simpa using he2)
                (by rw [← hc1, ← hc2] at hne; exact hne) this
      | some ln =>
          cases r with
          | none =>
              rw [leafChars_sn] at hnd
              simp only [leafPaths, List.mem_map, Prod.mk.injEq] at h1 h2
              obtain ⟨e1, he1, hc1, hf1, hp1⟩ := h1
              obtain ⟨e2, he2, hc2, hf2, hp2⟩ := h2
              subst hp1; subst hp2
              have := (List.cons_prefix_cons.1 hpre).2
              exact ihl ln rfl hnd e1.1 e1.2.1 e1.2.2 e2.1 e2.2.1 e2.2.2
                (by simpa using he1) (by simpa using he2)
                (by rw [← hc1, ← hc2] at hne; exact hne) this
          | some rn =>
              rw [leafChars_ss, List.nodup_append] at hnd
              obtain ⟨hndl, hndr, _⟩ := hnd
              simp only [leafPaths, List.mem_append, List.mem_map, Prod.mk.injEq] at h1 h2
              rcases h1 with ⟨e1, he1, hc1, hf1, hp1⟩ | ⟨e1, he1, hc1, hf1, hp1⟩ <;>
                rcases h2 with ⟨e2, he2, hc2, hf2, hp2⟩ | ⟨e2, he2, hc2, hf2, hp2⟩ <;>
                  subst hp1 <;> subst hp2
              · have := (List.cons_prefix_cons.1 hpre).2
                exact ihl ln rfl hndl e1.1 e1.2.1 e1.2.2 e2.1 e2.2.1 e2.2.2
                  (by simpa using he1) (by simpa using he2)
                  (by rw [← hc1, ← hc2] at hne; exact hne) this
              · exact absurd (List.cons_prefix_cons.1 hpre).1 (by simp)
              · exact absurd (List.cons_prefix_cons.1 hpre).1 (by simp)
              · have := (List.cons_prefix_cons.1 hpre).2
                exact ihr rn rfl hndr e1.1 e1.2.1 e1.2.2 e2.1 e2.2.1 e2.2.2
                  (by simpa using he1) (by simpa using he2)
                  (by rw [← hc1, ← hc2] at hne; exact hne) this

/-- C7: every code table generated from a tree built from a (necessarily
non-empty, duplicate-free) frequency table is prefix-free: the code of one
symbol is never a prefix of the code of a different symbol. -/
theorem codes_prefix_free (freqs : List (Char × Nat))
    (hnd : (freqs.map Prod.fst).Nodup)
    (t : HuffmanNode) (prior : List (Tok × List Bool)) (codes : List (Tok × List Bool))
    (hb : build_huffman_tree freqs = .ok (some t))
    (hc : generate_codes (some t) prior = .ok codes) :
    ∀ c1 p1 c2 p2, (c1, p1) ∈ codes → (c2, p2) ∈ codes → c1 ≠ c2 → ¬ p1 <+: p2 := by
  intro c1 p1 c2 p2 h1 h2 hne
  cases t with
  | leaf c f =>
      rw [generate_codes_leaf_root] at hc
      cases hc
      simp only [List.mem_singleton, Prod.mk.injEq] at h1 h2
      exact absurd (h1.1.trans h2.1.symm) hne
  | internal f l r =>
      have hndc : (leafChars (.internal f l r)).Nodup := build_tree_chars_nodup hnd hb
      rw [generate_codes_internal_root f l r prior hndc] at hc
      cases hc
      simp only [List.mem_map, Prod.mk.injEq] at h1 h2
      obtain ⟨e1, he1, hc1, hp1⟩ := h1
      obtain ⟨e2, he2, hc2, hp2⟩ := h2
      subst hp1; subst hp2
      exact leafPaths_not_pre _ hndc e1.1 e1.2.1 e1.2.2 e2.1 e2.2.1 e2.2.2
        (by simpa using he1) (by simpa using he2)
        (by rw [← hc1, ← hc2] at hne; exact hne)

theorem codes_prefix_free_witness : ¬ [false] <+: [true] :=
  codes_prefix_free [('a', 1), ('b', 1)] (by decide)
    (.internal 2 (some (.leaf (.sym 'a') 1)) (some (.leaf (.sym 'b') 1))) []
    [(Tok.sym 'a', [false]), (Tok.sym 'b', [true])]
    (by simp [build_huffman_tree, build_loop_cons2, build_loop_single, extractMin,
      HuffmanNode.freq])
    (by simp [generate_codes, gen_codes_aux, dictInsert])
    (Tok.sym 'a') [false] (Tok.sym 'b') [true]
    (by simp) (by simp) (by decide)

/-! ## Bit packing and unpacking -/

theorem bitsToNat_acc (bits : List Bool) :
    ∀ acc : Nat,
      bits.foldl (fun n b => 2 * n + (if b then 1 else 0)) acc =
        acc * 2 ^ bits.length + bitsToNat bits := by
  induction bits with
  | nil => intro acc; simp [bitsToNat]
  | cons b rest ih =>
      intro acc
      simp only [List.foldl_cons, bitsToNat, List.length_cons]
      rw [ih (2 * acc + (if b then 1 else 0)), ih (2 * 0 + (if b then 1 else 0))]
      ring

theorem bitsToNat_cons (b : Bool) (rest : List Bool) :
    bitsToNat (b :: rest) = (if b then 1 else 0) * 2 ^ rest.length + bitsToNat rest := by
  show List.foldl _ 0 (b :: rest) = _
  rw [List.foldl_cons, bitsToNat_acc]
  ring_nf

theorem bitsToNat_lt (bits : List Bool) : bitsToNat bits < 2 ^ bits.length := by
  induction bits with
  | nil => simp [bitsToNat]
  | cons b rest ih =>
      rw [bitsToNat_cons]
      simp only [List.length_cons, pow_succ]
      cases b <;> simp <;> omega

theorem bitsToNat_snoc (xs : List Bool) (b : Bool) :
    bitsToNat (xs ++ [b]) = 2 * bitsToNat xs + (if b then 1 else 0) := by
  simp [bitsToNat, List.foldl_append]

theorem natToBits_ne_nil (n : Nat) : natToBits n ≠ [] := by
  rw [natToBits]
  split
  · simp
  · simp

theorem bitsToNat_natToBits (n : Nat) : bitsToNat (natToBits n) = n := by
  induction n using Nat.strong_induction_on with
  | _ n ih =>
      rw [natToBits]
      split
      · rename_i h
        interval_cases n <;> simp [bitsToNat]
      · rename_i h
        rw [bitsToNat_snoc, ih (n / 2) (by omega)]
        rcases Nat.mod_two_eq_zero_or_one n with hm | hm <;> simp [hm] <;> omega

theorem natToBits_length_le (n : Nat) :
    ∀ k : Nat, 1 ≤ k → n < 2 ^ k → (natToBits n).length ≤ k := by
  induction n using Nat.strong_induction_on with
  | _ n ih =>
      intro k hk hlt
      rw [natToBits]
      split
      · rename_i h
        simpa using hk
      · rename_i h
        have hk2 : 2 ≤ k := by
          by_contra hc
          have : k = 1 := by omega
          subst this
          simp at hlt
          omega
        have : n / 2 < 2 ^ (k - 1) := by
          have h2 : 2 ^ k = 2 * 2 ^ (k - 1) := by
            rw [← pow_succ']
            congr 1
            omega
          omega
        have := ih (n / 2) (by omega) (k - 1) (by omega) this
        simp only [List.length_append, List.length_cons, List.length_nil]
        omega

theorem bitsToNat_false_cons (bits : List Bool) :
    bitsToNat (false :: bits) = bitsToNat bits := by
  rw [bitsToNat_cons]
  simp

theorem natToBits_true_cons (bits : List Bool) :
    natToBits (bitsToNat (true :: bits)) = true :: bits := by
  induction bits using List.reverseRecOn with
  | nil => simp [bitsToNat, natToBits_small]
  | append_singleton xs b ih =>
      have hx : bitsToNat (true :: (xs ++ [b])) = 2 * bitsToNat (true :: xs) +
          (if b then 1 else 0) := by
        rw [show true :: (xs ++ [b]) = (true :: xs) ++ [b] from rfl, bitsToNat_snoc]
      have hge : 1 ≤ bitsToNat (true :: xs) := by
        rw [bitsToNat_cons]
        have : 1 ≤ 2 ^ xs.length := Nat.one_le_two_pow
        simp only [if_true]
        omega
      rw [hx, natToBits_big (by cases b <;> simp <;> omega)]
      have hdiv : (2 * bitsToNat (true :: xs) + (if b then 1 else 0)) / 2 =
          bitsToNat (true :: xs) := by
        cases b <;> simp <;> omega
      have hmod : ((2 * bitsToNat (true :: xs) + (if b then 1 else 0)) % 2 == 1) = b := by
        cases b <;> simp [Nat.add_mul_mod_self_left] <;> omega
      rw [hdiv, ih, hmod]
      rfl

/-- `zfill` recovery: re-expanding the packed value of a non-empty bit block
and left-padding with zeros to the original width restores the block. -/
theorem zfill_recovers :
    ∀ bits : List Bool, bits ≠ [] →
      List.replicate (bits.length - (natToBits (bitsToNat bits)).length) false ++
        natToBits (bitsToNat bits) = bits := by
  intro bits
  induction bits with
  | nil => intro h; exact absurd rfl h
  | cons b rest ih =>
      intro _
      cases b with
      | true =>
          rw [natToBits_true_cons]
          simp
      | false =>
          rw [bitsToNat_false_cons]
          rcases eq_or_ne rest [] with hrest | hrne
          · subst hrest
            simp [bitsToNat, natToBits_small]
          · have hlen : (natToBits (bitsToNat rest)).length ≤ rest.length := by
              apply natToBits_length_le
              · cases rest with
                | nil => exact absurd rfl hrne
                | cons c cs => simp only [List.length_cons]; omega
              · exact bitsToNat_lt rest
            rw [show (false :: rest).length = rest.length + 1 from rfl]
            rw [show rest.length + 1 - (natToBits (bitsToNat rest)).length =
                (rest.length - (natToBits (bitsToNat rest)).length) + 1 from by omega]
            rw [List.replicate_succ, List.cons_append, ih hrne]

/-- Unpacking one packed byte of 8 bits gives the bits back. -/
theorem byteToBits_bitsToNat (bits : List Bool) (hlen : bits.length = 8) :
    byteToBits (bitsToNat bits) = bits := by
  unfold byteToBits
  have hne : bits ≠ [] := by
    intro hh
    rw [hh] at hlen
    simp at hlen
  rw [← hlen]
  exact zfill_recovers bits hne

/-- Unpacking the packed bytes of a byte-aligned bit string restores it. -/
theorem unpack_pack_aux :
    ∀ (n : Nat) (bits : List Bool), bits.length ≤ n → bits.length % 8 = 0 →
      ((packBytes bits).map byteToBits).flatten = bits := by
  intro n
  induction n with
  | zero =>
      intro bits hlen _
      have : bits = [] := List.length_eq_zero.1 (Nat.le_zero.1 hlen)
      subst this
      simp [packBytes_nil]
  | succ n ih =>
      intro bits hlen hmod
      cases bits with
      | nil => simp [packBytes_nil]
      | cons b rest =>
          have hge : 8 ≤ (b :: rest).length := by
            rcases Nat.lt_or_ge (b :: rest).length 8 with hlt | hge
            · exfalso
              have hpos : 0 < (b :: rest).length := by simp
              omega
            · exact hge
          rw [packBytes_cons]
          simp only [List.map_cons, List.flatten_cons]
          have htake : ((b :: rest).take 8).length = 8 :=
            List.length_take_of_le hge
          rw [byteToBits_bitsToNat _ htake]
          have hdroplen : ((b :: rest).drop 8).length = (b :: rest).length - 8 := by
            simp [List.length_drop]
          have hih := ih ((b :: rest).drop 8)
            (by rw [hdroplen]; simp only [List.length_cons] at hlen ⊢; omega)
            (by rw [hdroplen]; omega)
          rw [hih, List.take_append_drop]

/-- Unpacking the packed bytes of a byte-aligned bit string restores it. -/
theorem unpack_pack (bits : List Bool) (hmod : bits.length % 8 = 0) :
    ((packBytes bits).map byteToBits).flatten = bits :=
  unpack_pack_aux bits.length bits (le_refl _) hmod

theorem bumpCount_keys (c : Char) :
    ∀ m : List (Char × Nat),
      (bumpCount m c).map Prod.fst =
        if c ∈ m.map Prod.fst then m.map Prod.fst else m.map Prod.fst ++ [c] := by
  intro m
  induction m with
  | nil => simp [bumpCount]
  | cons e rest ih =>
      obtain ⟨d, n⟩ := e
      by_cases hdc : d = c
      · subst hdc
        simp [bumpCount]
      · simp only [bumpCount, if_neg hdc, List.map_cons, List.mem_cons, ih]
        by_cases hc : c ∈ rest.map Prod.fst
        · simp [hc]
        · have hcd : ¬ (c = d) := fun hh => hdc hh.symm
          simp [hc, hcd]

theorem counter_keys_nodup :
    ∀ (text : List Char) (m : List (Char × Nat)),
      (m.map Prod.fst).Nodup → ((text.foldl bumpCount m).map Prod.fst).Nodup := by
  intro text
  induction text with
  | nil => intro m h; simpa using h
  | cons c rest ih =>
      intro m hm
      simp only [List.foldl_cons]
      apply ih
      rw [bumpCount_keys]
      split
      · exact hm
      · rename_i hni
        simp only [List.nodup_append, List.nodup_cons]
        exact ⟨hm, by simp, by intro a ha hb; simp at hb; subst hb; exact hni ha⟩

theorem counter_keys_mem :
    ∀ (text : List Char) (m : List (Char × Nat)) (c : Char),
      c ∈ (text.foldl bumpCount m).map Prod.fst ↔ c ∈ text ∨ c ∈ m.map Prod.fst := by
  intro text
  induction text with
  | nil => intro m c; simp
  | cons d rest ih =>
      intro m c
      simp only [List.foldl_cons, ih, List.mem_cons]
      rw [bumpCount_keys]
      constructor
      · intro h
        rcases h with h | h
        · exact Or.inl (Or.inr h)
        · split at h
          · exact Or.inr h
          · rcases List.mem_append.1 h with h | h
            · exact Or.inr h
            · simp at h; subst h; exact Or.inl (Or.inl rfl)
      · intro h
        rcases h with (rfl | h) | h
        · right
          split
          · rename_i hmem; exact hmem
          · exact List.mem_append.2 (Or.inr (by simp))
        · exact Or.inl h
        · right
          split
          · exact h
          · exact List.mem_append.2 (Or.inl h)

theorem calculate_frequencies_nodup (text : List Char) :
    ((calculate_frequencies text).map Prod.fst).Nodup :=
  counter_keys_nodup text [] (by simp)

theorem calculate_frequencies_mem (text : List Char) (c : Char) :
    c ∈ (calculate_frequencies text).map Prod.fst ↔ c ∈ text := by
  rw [calculate_frequencies, counter_keys_mem]
  simp

/-! ## Decoding walks -/

theorem strict_stripFreq (t : HuffmanNode) : strict (stripFreq t) = strict t := by
  induction t using HuffmanNode.indOn with
  | hleaf c f => rfl
  | hint f l r ihl ihr =>
      cases l with
      | none => cases r with
        | none => rfl
        | some rn => rfl
      | some ln =>
          cases r with
          | none => rfl
          | some rn => simp [stripFreq, strict, ihl ln rfl, ihr rn rfl]

theorem leafPaths_stripFreq (t : HuffmanNode) :
    leafPaths (stripFreq t) = (leafPaths t).map fun e => (e.1, 0, e.2.2) := by
  induction t using HuffmanNode.indOn with
  | hleaf c f => rfl
  | hint f l r ihl ihr =>
      cases l with
      | none =>
          cases r with
          | none => rfl
          | some rn =>
              simp only [stripFreq, leafPaths, ihr rn rfl, List.map_map]
              exact List.map_congr_left fun e _ => rfl
      | some ln =>
          cases r with
          | none =>
              simp only [stripFreq, leafPaths, ihl ln rfl, List.map_map]
              exact List.map_congr_left fun e _ => rfl
          | some rn =>
              simp only [stripFreq, leafPaths, ihl ln rfl, ihr rn rfl,
                List.map_append, List.map_map]
              congr 1
              all_goals first
                | rfl
                | exact List.map_congr_left fun e _ => rfl

theorem is_leaf_stripFreq (t : HuffmanNode) :
    (stripFreq t).is_leaf = t.is_leaf := by
  cases t with
  | leaf c f => rfl
  | internal f l r => cases l <;> cases r <;> rfl

theorem dictGet_ok_mem :
    ∀ {d : List (Tok × List Bool)} {k : Tok} {v : List Bool},
      dictGet d k = .ok v → (k, v) ∈ d := by
  intro d
  induction d with
  | nil => intro k v h; simp [dictGet] at h
  | cons e rest ih =>
      intro k v h
      obtain ⟨k', v'⟩ := e
      simp only [dictGet] at h
      split at h
      · rename_i heq
        subst heq
        cases h
        simp
      · exact List.mem_cons.2 (Or.inr (ih h))

/-- Walking the decoder down a leaf's path from an internal strict subtree
emits exactly that leaf's symbol and resets the walk to the root. -/
theorem decode_walk (R : Option HuffmanNode) :
    ∀ t : HuffmanNode, strict t → t.is_leaf = false →
      ∀ c f p, (c, f, p) ∈ leafPaths t →
        ∀ rest acc,
          decode_loop R (p ++ rest) (some t) acc = decode_loop R rest R (acc ++ [c]) := by
  intro t
  induction t using HuffmanNode.indOn with
  | hleaf c f => intro _ hl; cases hl
  | hint f l r ihl ihr =>
      intro hs _ c fq p hmem rest acc
      cases l with
      | none => cases r <;> simp [strict] at hs
      | some ln =>
          cases r with
          | none => simp [strict] at hs
          | some rn =>
              simp only [strict, Bool.and_eq_true] at hs
              simp only [leafPaths, List.mem_append, List.mem_map, Prod.mk.injEq] at hmem
              rcases hmem with ⟨⟨e1, e2, e3⟩, he, hc, hf, hp⟩ | ⟨⟨e1, e2, e3⟩, he, hc, hf, hp⟩
              · dsimp only at hc hf hp
                subst hc
                subst hf
                subst hp
                simp only [List.cons_append, decode_loop, HuffmanNode.childFor]
                cases ln with
                | leaf lc lf =>
                    simp only [leafPaths, List.mem_singleton, Prod.mk.injEq] at he
                    obtain ⟨hce, _, he3⟩ := he
                    subst hce
                    subst he3
                    simp
                | internal lf ll lr =>
                    exact ihl _ rfl hs.1 rfl _ _ _ he rest acc
              · dsimp only at hc hf hp
                subst hc
                subst hf
                subst hp
                simp only [List.cons_append, decode_loop, HuffmanNode.childFor]
                cases rn with
                | leaf rc rf =>
                    simp only [leafPaths, List.mem_singleton, Prod.mk.injEq] at he
                    obtain ⟨hce, _, he3⟩ := he
                    subst hce
                    subst he3
                    simp
                | internal rf rl rr =>
                    exact ihr _ rfl hs.2 rfl _ _ _ he rest acc

/-- Decoding the bit string produced by `encode_text` against a strict
internal tree recovers the input text (with any remaining bits handed on). -/
theorem decode_encode_text (T : HuffmanNode) (hs : strict T)
    (hnl : T.is_leaf = false) (codes : List (Tok × List Bool))
    (hcodes : ∀ k v, (k, v) ∈ codes → ∃ f, (k, f, v) ∈ leafPaths T) :
    ∀ (text : List Char) (enc : List Bool),
      encode_text codes text = .ok enc →
      ∀ rest acc,
        decode_loop (some T) (enc ++ rest) (some T) acc =
          decode_loop (some T) rest (some T) (acc ++ text.map Tok.sym) := by
  intro text
  induction text with
  | nil =>
      intro enc henc rest acc
      simp only [encode_text, Except.ok.injEq] at henc
      subst henc
      simp
  | cons c rest' ih =>
      intro enc henc rest acc
      simp only [encode_text, bind, Except.bind] at henc
      cases hd : dictGet codes (Tok.sym c) with
      | error e => rw [hd] at henc; simp at henc
      | ok v =>
          rw [hd] at henc
          dsimp only at henc
          cases he : encode_text codes rest' with
          | error e => rw [he] at henc; simp at henc
          | ok tail =>
              rw [he] at henc
              dsimp only at henc
              cases henc
              obtain ⟨fq, hmem⟩ := hcodes _ _ (dictGet_ok_mem hd)
              rw [List.append_assoc]
              rw [decode_walk (some T) T hs hnl (Tok.sym c) fq v hmem (tail ++ rest) acc]
              rw [ih tail he rest (acc ++ [Tok.sym c])]
              simp

/-- The merge loop on a non-empty queue always returns a tree. -/
theorem build_loop_isSome :
    ∀ (n : Nat) (q : List HuffmanNode), q.length ≤ n → q ≠ [] →
      ∃ t, build_loop q = some t := by
  intro n
  induction n with
  | zero =>
      intro q hlen hne
      have : q = [] := List.length_eq_zero.1 (Nat.le_zero.1 hlen)
      exact absurd this hne
  | succ n ih =>
      intro q hlen hne
      by_cases hq : q.length ≤ 1
      · cases q with
        | nil => exact absurd rfl hne
        | cons a as =>
            cases as with
            | nil => exact ⟨a, build_loop_single a⟩
            | cons b bs => simp [List.length_cons] at hq
      · cases q with
        | nil => exact absurd rfl hne
        | cons a as =>
            cases as with
            | nil => simp [List.length_cons] at hq
            | cons b bs =>
                cases hm : extractMin (a :: b :: bs) with
                | none =>
                    exfalso
                    have hss := extractMin_isSome a (b :: bs)
                    rw [hm] at hss
                    simp at hss
                | some p =>
                    obtain ⟨l, q1⟩ := p
                    have hq1 : q1.length + 1 = (a :: b :: bs).length := extractMin_length hm
                    cases q1 with
                    | nil =>
                        simp only [List.length_nil, List.length_cons] at hq1 hq
                        omega
                    | cons cc cs =>
                        cases hm2 : extractMin (cc :: cs) with
                        | none =>
                            exfalso
                            have hss := extractMin_isSome cc cs
                            rw [hm2] at hss
                            simp at hss
                        | some p2 =>
                            obtain ⟨r, q2⟩ := p2
                            have hq2 := extractMin_length hm2
                            obtain ⟨t, ht⟩ := ih
                              (q2 ++ [HuffmanNode.internal (l.freq + r.freq) (some l) (some r)])
                              (by simp only [List.length_append, List.length_cons,
                                    List.length_nil] at hq1 hq2 hlen ⊢
                                  omega)
                              (by simp)
                            refine ⟨t, ?_⟩
                            rw [build_loop_step hq hm hm2]
                            exact ht

theorem encode_text_total (codes : List (Tok × List Bool)) :
    ∀ text : List Char,
      (∀ c ∈ text, ∃ v, dictGet codes (Tok.sym c) = .ok v) →
      ∃ enc, encode_text codes text = .ok enc := by
  intro text
  induction text with
  | nil => intro _; exact ⟨[], rfl⟩
  | cons c rest ih =>
      intro h
      obtain ⟨v, hv⟩ := h c (by simp)
      obtain ⟨tail, htail⟩ := ih (fun d hd => h d (by simp [hd]))
      refine ⟨v ++ tail, ?_⟩
      simp only [encode_text, bind, Except.bind, hv, htail]

theorem padding_aligns (n : Nat) :
    (n + (if n % 8 ≠ 0 then 8 - n % 8 else 0)) % 8 = 0 := by
  rcases eq_or_ne (n % 8) 0 with h | h
  · simp [h]
  · simp only [ne_eq, h, not_false_iff, if_true]
    omega

theorem take_of_padded (enc pad : List Bool) :
    (enc ++ pad).take ((enc ++ pad).length - pad.length) = enc := by
  have h : (enc ++ pad).length - pad.length = enc.length := by
    simp [List.length_append]
  rw [h]
  exact List.take_left enc pad

theorem multiset_coe_length {α : Type} {l₁ l₂ : List α}
    (h : (l₁ : Multiset α) = (l₂ : Multiset α)) : l₁.length = l₂.length := by
  rw [Multiset.coe_eq_coe] at h
  exact h.length_eq

theorem generate_codes_root (T : HuffmanNode) (hnl : T.is_leaf = false)
    (prior : List (Tok × List Bool)) (hnd : (leafChars T).Nodup) :
    generate_codes (some T) prior =
      .ok ((leafPaths T).map fun e => (e.1, e.2.2)) := by
  cases T with
  | leaf c f => cases hnl
  | internal f l r => exact generate_codes_internal_root f l r prior hnd

/-- C1 (amended): the round trip is the identity on every input with at
least two distinct symbols. -/
theorem roundtrip_two_distinct (text : List Char)
    (h2 : 2 ≤ (calculate_frequencies text).length) :
    roundtrip text = .ok (text.map Tok.sym) := by
  have hfne : calculate_frequencies text ≠ [] := by
    intro h
    rw [h] at h2
    simp at h2
  have hqne : (calculate_frequencies text).map
      (fun cf => HuffmanNode.leaf (.sym cf.1) cf.2) ≠ [] := by
    simpa using hfne
  obtain ⟨T, hT⟩ := build_loop_isSome
    ((calculate_frequencies text).map (fun cf => HuffmanNode.leaf (.sym cf.1) cf.2)).length
    _ (le_refl _) hqne
  have hb : build_huffman_tree (calculate_frequencies text) = .ok (some T) := by
    unfold build_huffman_tree
    rw [if_neg (by simpa [List.isEmpty_iff] using hfne)]
    rw [hT]
  have hstrict : strict T :=
    build_loop_strict _ _ (le_refl _)
      (by intro u hu
          obtain ⟨cf, _, rfl⟩ := List.mem_map.1 hu
          rfl)
      T hT
  have hleaves := build_tree_leaves hb
  have hlen : (nodeLeaves T).length = (calculate_frequencies text).length := by
    have h := multiset_coe_length hleaves
    simpa using h
  have hnl : T.is_leaf = false := by
    cases T with
    | leaf c f =>
        exfalso
        simp only [nodeLeaves, List.length_cons, List.length_nil] at hlen
        omega
    | internal f l r => rfl
  have hndk := calculate_frequencies_nodup text
  have hndc : (leafChars T).Nodup := build_tree_chars_nodup hndk hb
  have hcodes : generate_codes (some T) [] =
      .ok ((leafPaths T).map fun e => (e.1, e.2.2)) :=
    generate_codes_root T hnl [] hndc
  have hget : ∀ c ∈ text, ∃ v,
      dictGet ((leafPaths T).map fun e => (e.1, e.2.2)) (Tok.sym c) = .ok v := by
    intro c hc
    have h1 : c ∈ (calculate_frequencies text).map Prod.fst :=
      (calculate_frequencies_mem text c).2 hc
    have hsymc : Tok.sym c ∈ leafChars T := by
      have hperm := build_tree_chars_perm hb
      rw [hperm.mem_iff]
      obtain ⟨cf, hcf, hc1⟩ := List.mem_map.1 h1
      exact List.mem_map.2 ⟨cf, hcf, by rw [hc1]⟩
    obtain ⟨e, he, hke⟩ := List.mem_map.1 hsymc
    refine ⟨e.2.2, ?_⟩
    apply dictGet_of_mem
    · rw [codes_keys]
      exact hndc
    · exact List.mem_map.2 ⟨e, he, by rw [← hke]⟩
  obtain ⟨enc, henc⟩ := encode_text_total _ text hget
  have hcompress : compress text = .ok
      ⟨packBytes (enc ++ List.replicate
          (if enc.length % 8 ≠ 0 then 8 - enc.length % 8 else 0) false),
        serialize_tree T,
        if enc.length % 8 ≠ 0 then 8 - enc.length % 8 else 0⟩ := by
    unfold compress
    dsimp only
    rw [hb]
    simp only [bind, Except.bind]
    rw [hcodes]
    dsimp only
    rw [henc]
  have hdes : deserialize_tree (serialize_tree T) = .ok (some (stripFreq T), []) := by
    have h := deserialize_serialize T hstrict []
    simpa using h
  have hsT : strict (stripFreq T) := by
    rw [strict_stripFreq]
    exact hstrict
  have hnlT : (stripFreq T).is_leaf = false := by
    rw [is_leaf_stripFreq]
    exact hnl
  have hcodes2 : ∀ k v, (k, v) ∈ ((leafPaths T).map fun e => (e.1, e.2.2)) →
      ∃ fq, (k, fq, v) ∈ leafPaths (stripFreq T) := by
    intro k v hkv
    obtain ⟨e, he, heq⟩ := List.mem_map.1 hkv
    refine ⟨0, ?_⟩
    rw [leafPaths_stripFreq]
    refine List.mem_map.2 ⟨e, he, ?_⟩
    have h1 : e.1 = k := congrArg Prod.fst heq
    have h2 : e.2.2 = v := congrArg Prod.snd heq
    rw [h1, h2]
  have hdecomp : decompress
      (packBytes (enc ++ List.replicate
        (if enc.length % 8 ≠ 0 then 8 - enc.length % 8 else 0) false))
      (serialize_tree T)
      (if enc.length % 8 ≠ 0 then 8 - enc.length % 8 else 0) = .ok (text.map Tok.sym) := by
    unfold decompress
    rw [hdes]
    simp only [bind, Except.bind]
    have hpadlen : (enc ++ List.replicate
        (if enc.length % 8 ≠ 0 then 8 - enc.length % 8 else 0) false).length % 8 = 0 := by
      simp only [List.length_append, List.length_replicate]
      exact padding_aligns enc.length
    rw [unpack_pack _ hpadlen]
    have hbits : (if (if enc.length % 8 ≠ 0 then 8 - enc.length % 8 else 0) ≠ 0 then
        (enc ++ List.replicate
            (if enc.length % 8 ≠ 0 then 8 - enc.length % 8 else 0) false).take
          ((enc ++ List.replicate
              (if enc.length % 8 ≠ 0 then 8 - enc.length % 8 else 0) false).length -
            (if enc.length % 8 ≠ 0 then 8 - enc.length % 8 else 0))
      else (enc ++ List.replicate
          (if enc.length % 8 ≠ 0 then 8 - enc.length % 8 else 0) false)) = enc := by
      by_cases hp0 : (if enc.length % 8 ≠ 0 then 8 - enc.length % 8 else 0) = 0
      · rw [if_neg (by simpa using hp0), hp0]
        simp
      · rw [if_pos hp0]
        have h := take_of_padded enc
          (List.replicate (if enc.length % 8 ≠ 0 then 8 - enc.length % 8 else 0) false)
        simpa [List.length_replicate] using h
    rw [hbits]
    have h := decode_encode_text (stripFreq T) hsT hnlT
      ((leafPaths T).map fun e => (e.1, e.2.2)) hcodes2 text enc henc [] []
    simpa using h
  unfold roundtrip
  rw [hcompress]
  simp only [bind, Except.bind]
  exact hdecomp

/-- C1 counterexample: the round trip fails on the empty sequence, because
`compress` raises on the empty frequency map instead of short-circuiting. -/
theorem roundtrip_fails_on_empty :
    roundtrip [] =
      .error "No hay frecuencias calculadas. Ejecute calculate_frequencies primero." := by
  simp [roundtrip, compress, calculate_frequencies, build_huffman_tree, bind, Except.bind]

theorem roundtrip_two_distinct_witness :
    roundtrip ['a', 'b'] = .ok (['a', 'b'].map Tok.sym) :=
  roundtrip_two_distinct ['a', 'b'] (by decide)

/-! ## Monotone code length: invariants of the merge loop -/

/-- Within one tree: a strictly more frequent leaf is never deeper. -/
def sameOK (A : HuffmanNode) : Prop :=
  ∀ cx fx px cy fy py, (cx, fx, px) ∈ leafPaths A → (cy, fy, py) ∈ leafPaths A →
    fy < fx → px.length ≤ py.length

/-- Across two queue trees, `A` listed before `B`: a strictly more frequent
leaf is never deeper, and at equal depths the tree holding the more frequent
leaf outweighs the other (strictly when it is the earlier tree). -/
def crossOK (A B : HuffmanNode) : Prop :=
  (∀ cx fx px cy fy py, (cx, fx, px) ∈ leafPaths A → (cy, fy, py) ∈ leafPaths B →
      fy < fx → px.length ≤ py.length ∧ (px.length = py.length → B.freq < A.freq)) ∧
  (∀ cx fx px cy fy py, (cx, fx, px) ∈ leafPaths B → (cy, fy, py) ∈ leafPaths A →
      fy < fx → px.length ≤ py.length ∧ (px.length = py.length → A.freq ≤ B.freq))

theorem mem_leafPaths_merge {c : Tok} {f : Nat} {p : List Bool}
    {w : Nat} {a b : HuffmanNode} :
    (c, f, p) ∈ leafPaths (.internal w (some a) (some b)) ↔
      (∃ p', p = false :: p' ∧ (c, f, p') ∈ leafPaths a) ∨
      (∃ p', p = true :: p' ∧ (c, f, p') ∈ leafPaths b) := by
  simp only [leafPaths, List.mem_append, List.mem_map, Prod.mk.injEq]
  constructor
  · intro h
    rcases h with ⟨⟨e1, e2, e3⟩, he, hc, hf, hp⟩ | ⟨⟨e1, e2, e3⟩, he, hc, hf, hp⟩ <;>
      dsimp only at hc hf hp
    · subst hc
      subst hf
      exact Or.inl ⟨e3, hp.symm, he⟩
    · subst hc
      subst hf
      exact Or.inr ⟨e3, hp.symm, he⟩
  · intro h
    rcases h with ⟨p', hp, hm⟩ | ⟨p', hp, hm⟩
    · exact Or.inl ⟨(c, f, p'), hm, rfl, rfl, hp.symm⟩
    · exact Or.inr ⟨(c, f, p'), hm, rfl, rfl, hp.symm⟩

/-- A leaf entry with a non-empty path can only come from an internal tree. -/
theorem internal_of_path_pos {c : Tok} {f : Nat} {p : List Bool}
    {R : HuffmanNode} (hmem : (c, f, p) ∈ leafPaths R) (hlen : 1 ≤ p.length) :
    R.is_leaf = false := by
  cases R with
  | leaf rc rf =>
      simp only [leafPaths, List.mem_singleton, Prod.mk.injEq] at hmem
      rw [hmem.2.2] at hlen
      simp at hlen
  | internal w l r => rfl

/-- A leaf tree's single entry carries the tree's own frequency. -/
theorem leafPaths_of_leaf {c : Tok} {f : Nat} {p : List Bool}
    {rc : Tok} {rf : Nat} (hmem : (c, f, p) ∈ leafPaths (.leaf rc rf)) :
    c = rc ∧ f = rf ∧ p = [] := by
  simp only [leafPaths, List.mem_singleton, Prod.mk.injEq] at hmem
  exact hmem

/-- The two directional depth bounds packaged by `crossOK`, in either listing
order. -/
theorem crossLe_of_crossOK {A B : HuffmanNode}
    (h : crossOK A B ∨ crossOK B A) :
    ∀ cx fx px cy fy py, (cx, fx, px) ∈ leafPaths A → (cy, fy, py) ∈ leafPaths B →
      fy < fx → px.length ≤ py.length := by
  intro cx fx px cy fy py hx hy hf
  rcases h with h | h
  · exact (h.1 cx fx px cy fy py hx hy hf).1
  · exact (h.2 cx fx px cy fy py hx hy hf).1

/-- The merged node keeps the within-tree monotonicity when both halves have
it and the cross bounds hold in both directions. -/
theorem sameOK_merge {a b : HuffmanNode} {w : Nat}
    (hsa : sameOK a) (hsb : sameOK b)
    (hab : ∀ cx fx px cy fy py, (cx, fx, px) ∈ leafPaths a →
      (cy, fy, py) ∈ leafPaths b → fy < fx → px.length ≤ py.length)
    (hba : ∀ cx fx px cy fy py, (cx, fx, px) ∈ leafPaths b →
      (cy, fy, py) ∈ leafPaths a → fy < fx → px.length ≤ py.length) :
    sameOK (.internal w (some a) (some b)) := by
  intro cx fx px cy fy py hx hy hf
  rcases mem_leafPaths_merge.1 hx with ⟨px', hpx, hxa⟩ | ⟨px', hpx, hxb⟩ <;>
    rcases mem_leafPaths_merge.1 hy with ⟨py', hpy, hya⟩ | ⟨py', hpy, hyb⟩ <;>
      subst hpx <;> subst hpy <;> simp only [List.length_cons]
  · exact Nat.succ_le_succ (hsa cx fx px' cy fy py' hxa hya hf)
  · exact Nat.succ_le_succ (hab cx fx px' cy fy py' hxa hyb hf)
  · exact Nat.succ_le_succ (hba cx fx px' cy fy py' hxb hya hf)
  · exact Nat.succ_le_succ (hsb cx fx px' cy fy py' hxb hyb hf)

/-- Strict cross-tree depth bound, derived from the listed-order invariant
plus the weight facts that hold when `X` is popped while `R` stays. -/
theorem strict_cross {X R : HuffmanNode}
    (hcase : (crossOK X R ∧ X.freq ≤ R.freq) ∨ (crossOK R X ∧ X.freq < R.freq)) :
    ∀ cx fx px cy fy py, (cx, fx, px) ∈ leafPaths X → (cy, fy, py) ∈ leafPaths R →
      fy < fx → px.length < py.length := by
  intro cx fx px cy fy py hx hy hf
  rcases hcase with ⟨hco, hle⟩ | ⟨hco, hlt⟩
  · obtain ⟨h1, h2⟩ := hco.1 cx fx px cy fy py hx hy hf
    rcases Nat.lt_or_ge px.length py.length with h | h
    · exact h
    · have heq : px.length = py.length := le_antisymm h1 h
      exact absurd hle (by have := h2 heq; omega)
  · obtain ⟨h1, h2⟩ := hco.2 cx fx px cy fy py hx hy hf
    rcases Nat.lt_or_ge px.length py.length with h | h
    · exact h
    · have heq : px.length = py.length := le_antisymm h1 h
      exact absurd hlt (by have := h2 heq; omega)

/-- The new node appended at the end of the queue satisfies the listed-order
cross invariant against every remaining tree. -/
theorem crossOK_merge {R a b : HuffmanNode}
    (hRa : ∀ cx fx px cy fy py, (cx, fx, px) ∈ leafPaths R →
      (cy, fy, py) ∈ leafPaths a → fy < fx → px.length ≤ py.length)
    (hRb : ∀ cx fx px cy fy py, (cx, fx, px) ∈ leafPaths R →
      (cy, fy, py) ∈ leafPaths b → fy < fx → px.length ≤ py.length)
    (haR : ∀ cx fx px cy fy py, (cx, fx, px) ∈ leafPaths a →
      (cy, fy, py) ∈ leafPaths R → fy < fx → px.length < py.length)
    (hbR : ∀ cx fx px cy fy py, (cx, fx, px) ∈ leafPaths b →
      (cy, fy, py) ∈ leafPaths R → fy < fx → px.length < py.length)
    (hwR : R.is_leaf = false → R.freq ≤ a.freq + b.freq) :
    crossOK R (.internal (a.freq + b.freq) (some a) (some b)) := by
  constructor
  · intro cx fx px cy fy py hx hy hf
    rcases mem_leafPaths_merge.1 hy with ⟨py', hpy, hya⟩ | ⟨py', hpy, hyb⟩ <;>
      subst hpy <;> simp only [List.length_cons]
    · have := hRa cx fx px cy fy py' hx hya hf
      exact ⟨by omega, by omega⟩
    · have := hRb cx fx px cy fy py' hx hyb hf
      exact ⟨by omega, by omega⟩
  · intro cx fx px cy fy py hx hy hf
    rcases mem_leafPaths_merge.1 hx with ⟨px', hpx, hxa⟩ | ⟨px', hpx, hxb⟩ <;>
      subst hpx <;> simp only [List.length_cons]
    · have hstrict := haR cx fx px' cy fy py hxa hy hf
      refine ⟨by omega, ?_⟩
      intro heq
      have hRint : R.is_leaf = false :=
        internal_of_path_pos hy (by omega)
      simpa [HuffmanNode.freq] using hwR hRint
    · have hstrict := hbR cx fx px' cy fy py hxb hy hf
      refine ⟨by omega, ?_⟩
      intro heq
      have hRint : R.is_leaf = false :=
        internal_of_path_pos hy (by omega)
      simpa [HuffmanNode.freq] using hwR hRint

/-- One iteration of the merge loop preserves all invariants, re-basing the
weight bound at the second extracted minimum. -/
theorem merge_preserves
    {q : List HuffmanNode} {m : Nat}
    {a b : HuffmanNode} {q1 q2 : List HuffmanNode}
    (hm : extractMin q = some (a, q1)) (hm2 : extractMin q1 = some (b, q2))
    (hsame : ∀ A ∈ q, sameOK A) (hcross : List.Pairwise crossOK q)
    (hlo : ∀ u ∈ q, m ≤ u.freq)
    (hhi : ∀ T ∈ q, T.is_leaf = false → T.freq ≤ 2 * m) :
    (∀ A ∈ q2 ++ [HuffmanNode.internal (a.freq + b.freq) (some a) (some b)], sameOK A) ∧
    List.Pairwise crossOK
      (q2 ++ [HuffmanNode.internal (a.freq + b.freq) (some a) (some b)]) ∧
    (∀ u ∈ q2 ++ [HuffmanNode.internal (a.freq + b.freq) (some a) (some b)],
      b.freq ≤ u.freq) ∧
    (∀ T ∈ q2 ++ [HuffmanNode.internal (a.freq + b.freq) (some a) (some b)],
      T.is_leaf = false → T.freq ≤ 2 * b.freq) := by
  obtain ⟨q₁, q₂, hq, hq1, hpre, hsuf⟩ := extractMin_char hm
  obtain ⟨r₁, r₂, hr, hr2, hpre2, hsuf2⟩ := extractMin_char hm2
  have hamem : a ∈ q := extractMin_mem hm
  have hbq1 : b ∈ q1 := extractMin_mem hm2
  have hq1sub : ∀ u ∈ q1, u ∈ q := extractMin_subset hm
  have hq2subq1 : ∀ u ∈ q2, u ∈ q1 := extractMin_subset hm2
  have hq2sub : ∀ u ∈ q2, u ∈ q := fun u hu => hq1sub u (hq2subq1 u hu)
  have hbmem : b ∈ q := hq1sub b hbq1
  have haminq : ∀ u ∈ q, a.freq ≤ u.freq := extractMin_min hm
  have hbminq1 : ∀ u ∈ q1, b.freq ≤ u.freq := extractMin_min hm2
  have hab : a.freq ≤ b.freq := haminq b hbmem
  -- decompose the pairwise invariant along q = q₁ ++ a :: q₂
  rw [hq] at hcross
  rw [List.pairwise_append] at hcross
  obtain ⟨hPq₁, hPaq₂, hXq₁⟩ := hcross
  rw [List.pairwise_cons] at hPaq₂
  obtain ⟨haq₂, hPq₂⟩ := hPaq₂
  -- the pairwise invariant for q1 = q₁ ++ q₂
  have hcrossq1 : List.Pairwise crossOK q1 := by
    rw [hq1, List.pairwise_append]
    exact ⟨hPq₁, hPq₂, fun x hx y hy => hXq₁ x hx y (List.mem_cons.2 (Or.inr hy))⟩
  -- and along q1 = r₁ ++ b :: r₂
  rw [hr] at hcrossq1
  rw [List.pairwise_append] at hcrossq1
  obtain ⟨hPr₁, hPbr₂, hXr₁⟩ := hcrossq1
  rw [List.pairwise_cons] at hPbr₂
  obtain ⟨hbr₂, hPr₂⟩ := hPbr₂
  -- cross facts versus a, for any remaining tree
  have hvsa : ∀ R ∈ q2, (crossOK a R ∧ a.freq ≤ R.freq) ∨
      (crossOK R a ∧ a.freq < R.freq) := by
    intro R hR
    have hRq1 : R ∈ q1 := hq2subq1 R hR
    rw [hq1] at hRq1
    rcases List.mem_append.1 hRq1 with h | h
    · exact Or.inr ⟨hXq₁ R h a (by simp), hpre R h⟩
    · exact Or.inl ⟨haq₂ R h, hsuf R h⟩
  have hvsb : ∀ R ∈ q2, (crossOK b R ∧ b.freq ≤ R.freq) ∨
      (crossOK R b ∧ b.freq < R.freq) := by
    intro R hR
    rw [hr2] at hR
    rcases List.mem_append.1 hR with h | h
    · exact Or.inr ⟨hXr₁ R h b (by simp), hpre2 R h⟩
    · exact Or.inl ⟨hbr₂ R h, hsuf2 R h⟩
  -- cross facts between a and b, both directions
  have habc : crossOK a b ∨ crossOK b a := by
    have := hbq1
    rw [hq1] at this
    rcases List.mem_append.1 this with h | h
    · exact Or.inr (hXq₁ b h a (by simp))
    · exact Or.inl (haq₂ b h)
  -- pairwise on the remaining queue
  have hPq2 : List.Pairwise crossOK q2 := by
    rw [hr2, List.pairwise_append]
    exact ⟨hPr₁, hPr₂, fun x hx y hy => hXr₁ x hx y (List.mem_cons.2 (Or.inr hy))⟩
  -- weight cap for remaining internal trees
  have hwcap : ∀ R ∈ q2, R.is_leaf = false → R.freq ≤ a.freq + b.freq := by
    intro R hR hint
    have h1 := hhi R (hq2sub R hR) hint
    have h2 := hlo a hamem
    have h3 := hlo b hbmem
    omega
  refine ⟨?_, ?_, ?_, ?_⟩
  · intro A hA
    rcases List.mem_append.1 hA with h | h
    · exact hsame A (hq2sub A h)
    · simp only [List.mem_singleton] at h
      subst h
      exact sameOK_merge (hsame a hamem) (hsame b hbmem)
        (crossLe_of_crossOK habc)
        (crossLe_of_crossOK (habc.symm.imp id id))
  · rw [List.pairwise_append]
    refine ⟨hPq2, List.pairwise_singleton _ _, ?_⟩
    intro R hR M hM
    simp only [List.mem_singleton] at hM
    subst hM
    exact crossOK_merge
      (crossLe_of_crossOK ((hvsa R hR).imp (fun h => h.1) (fun h => h.1) |>.symm.imp id id))
      (crossLe_of_crossOK ((hvsb R hR).imp (fun h => h.1) (fun h => h.1) |>.symm.imp id id))
      (strict_cross ((hvsa R hR).imp (fun h => ⟨h.1, h.2⟩) (fun h => ⟨h.1, h.2⟩)))
      (strict_cross ((hvsb R hR).imp (fun h => ⟨h.1, h.2⟩) (fun h => ⟨h.1, h.2⟩)))
      (hwcap R hR)
  · intro u hu
    rcases List.mem_append.1 hu with h | h
    · exact hbminq1 u (hq2subq1 u h)
    · simp only [List.mem_singleton] at h
      subst h
      show b.freq ≤ a.freq + b.freq
      omega
  · intro T hT hint
    rcases List.mem_append.1 hT with h | h
    · have h1 := hhi T (hq2sub T h) hint
      have h3 := hlo b hbmem
      omega
    · simp only [List.mem_singleton] at h
      subst h
      show a.freq + b.freq ≤ 2 * b.freq
      omega

/-- The invariants carry through the whole merge loop to the final tree. -/
theorem build_loop_mono :
    ∀ (n : Nat) (q : List HuffmanNode) (m : Nat), q.length ≤ n →
      (∀ A ∈ q, sameOK A) → List.Pairwise crossOK q →
      (∀ u ∈ q, m ≤ u.freq) → (∀ T ∈ q, T.is_leaf = false → T.freq ≤ 2 * m) →
      ∀ t, build_loop q = some t → sameOK t := by
  intro n
  induction n with
  | zero =>
      intro q m hlen _ _ _ _ t hb
      have : q = [] := List.length_eq_zero.1 (Nat.le_zero.1 hlen)
      subst this
      rw [build_loop_nil] at hb
      cases hb
  | succ n ih =>
      intro q m hlen hsame hcross hlo hhi t hb
      by_cases hq : q.length ≤ 1
      · rw [build_loop] at hb
        rw [dif_pos hq] at hb
        cases q with
        | nil => simp at hb
        | cons x xs =>
            simp only [List.head?] at hb
            cases hb
            exact hsame t (by simp)
      · rw [build_loop] at hb
        rw [dif_neg hq] at hb
        split at hb
        · cases hb
        · rename_i a q1 hm
          split at hb
          · cases hb
          · rename_i b q2 hm2
            have h1 := extractMin_length hm
            have h2 := extractMin_length hm2
            obtain ⟨hsame', hcross', hlo', hhi'⟩ :=
              merge_preserves hm hm2 hsame hcross hlo hhi
            exact ih (q2 ++ [HuffmanNode.internal (a.freq + b.freq) (some a) (some b)])
              b.freq
              (by simp only [List.length_append, List.length_cons, List.length_nil]
                  omega)
              hsame' hcross' hlo' hhi' t hb

theorem sameOK_of_build {freqs : List (Char × Nat)} {T : HuffmanNode}
    (hb : build_huffman_tree freqs = .ok (some T)) : sameOK T := by
  unfold build_huffman_tree at hb
  split at hb
  · cases hb
  · simp only [Except.ok.injEq] at hb
    apply build_loop_mono
      (freqs.map fun cf => HuffmanNode.leaf (.sym cf.1) cf.2).length _ 0 (le_refl _)
      ?_ ?_ ?_ ?_ T hb
    · intro A hA
      obtain ⟨cf, _, rfl⟩ := List.mem_map.1 hA
      intro cx fx px cy fy py hx hy hfy
      obtain ⟨_, hfx', hpx⟩ := leafPaths_of_leaf hx
      obtain ⟨_, hfy', _⟩ := leafPaths_of_leaf hy
      subst hfx'
      subst hfy'
      omega
    · rw [List.pairwise_map]
      apply List.pairwise_of_forall
      intro cf cf'
      constructor
      · intro cx fx px cy fy py hx hy hf
        obtain ⟨_, hfx, hpx⟩ := leafPaths_of_leaf hx
        obtain ⟨_, hfy, hpy⟩ := leafPaths_of_leaf hy
        subst hfx
        subst hfy
        subst hpx
        subst hpy
        exact ⟨le_refl _, fun _ => hf⟩
      · intro cx fx px cy fy py hx hy hf
        obtain ⟨_, hfx, hpx⟩ := leafPaths_of_leaf hx
        obtain ⟨_, hfy, hpy⟩ := leafPaths_of_leaf hy
        subst hfx
        subst hfy
        subst hpx
        subst hpy
        exact ⟨le_refl _, fun _ => le_of_lt hf⟩
    · intro u hu
      exact Nat.zero_le _
    · intro T' hT' hint
      obtain ⟨cf, _, rfl⟩ := List.mem_map.1 hT'
      cases hint

theorem leafPaths_freq_of_table {freqs : List (Char × Nat)} {T : HuffmanNode}
    (hnd : (freqs.map Prod.fst).Nodup)
    (hb : build_huffman_tree freqs = .ok (some T))
    {c : Char} {f : Nat} (hcf : (c, f) ∈ freqs)
    {e : Tok × Nat × List Bool} (he : e ∈ leafPaths T) (hec : e.1 = Tok.sym c) :
    e.2.1 = f := by
  have hml := build_tree_leaves hb
  have hmem : (Tok.sym c, f) ∈ nodeLeaves T := by
    rw [← Multiset.mem_coe, hml, Multiset.mem_coe]
    exact List.mem_map.2 ⟨(c, f), hcf, rfl⟩
  rw [nodeLeaves_eq_leafPaths] at hmem
  obtain ⟨e', he', heq⟩ := List.mem_map.1 hmem
  have hc' : e'.1 = Tok.sym c := congrArg Prod.fst heq
  have hf' : e'.2.1 = f := congrArg Prod.snd heq
  have hndc := build_tree_chars_nodup hnd hb
  have hee : e = e' := by
    have hinj := List.inj_on_of_nodup_map (f := fun e => e.1)
      (l := leafPaths T) (by rw [← leafChars]; exact hndc)
    exact hinj he he' (by rw [hec, hc'])
  rw [hee, hf']

theorem table_freq_unique {freqs : List (Char × Nat)}
    (hnd : (freqs.map Prod.fst).Nodup) {c : Char} {f f' : Nat}
    (h1 : (c, f) ∈ freqs) (h2 : (c, f') ∈ freqs) : f = f' := by
  have hinj := List.inj_on_of_nodup_map (f := Prod.fst) (l := freqs) hnd
  have := hinj h1 h2 rfl
  exact congrArg Prod.snd this

/-- C8: in any code table generated for a tree built from a duplicate-free
frequency table, a symbol of strictly higher frequency never receives a
strictly longer code. -/
theorem code_length_monotone (freqs : List (Char × Nat))
    (hnd : (freqs.map Prod.fst).Nodup)
    (T : HuffmanNode) (prior codes : List (Tok × List Bool))
    (hb : build_huffman_tree freqs = .ok (some T))
    (hc : generate_codes (some T) prior = .ok codes)
    (c1 : Char) (f1 : Nat) (c2 : Char) (f2 : Nat) (p1 p2 : List Bool)
    (h1 : (c1, f1) ∈ freqs) (h2 : (c2, f2) ∈ freqs) (hf : f2 < f1)
    (hp1 : (Tok.sym c1, p1) ∈ codes) (hp2 : (Tok.sym c2, p2) ∈ codes) :
    p1.length ≤ p2.length := by
  cases T with
  | leaf c f =>
      rw [generate_codes_leaf_root] at hc
      cases hc
      simp only [List.mem_singleton, Prod.mk.injEq] at hp1 hp2
      have hcc : c1 = c2 := Tok.sym.inj (hp1.1.trans hp2.1.symm)
      subst hcc
      have := table_freq_unique hnd h1 h2
      omega
  | internal w l r =>
      have hndc : (leafChars (.internal w l r)).Nodup :=
        build_tree_chars_nodup hnd hb
      rw [generate_codes_root (.internal w l r) rfl prior hndc] at hc
      cases hc
      obtain ⟨e1, he1, heq1⟩ := List.mem_map.1 hp1
      obtain ⟨e2, he2, heq2⟩ := List.mem_map.1 hp2
      have hc1 : e1.1 = Tok.sym c1 := congrArg Prod.fst heq1
      have hv1 : e1.2.2 = p1 := congrArg Prod.snd heq1
      have hc2 : e2.1 = Tok.sym c2 := congrArg Prod.fst heq2
      have hv2 : e2.2.2 = p2 := congrArg Prod.snd heq2
      have hfq1 : e1.2.1 = f1 := leafPaths_freq_of_table hnd hb h1 he1 hc1
      have hfq2 : e2.2.1 = f2 := leafPaths_freq_of_table hnd hb h2 he2 hc2
      have hmono := sameOK_of_build hb e1.1 e1.2.1 e1.2.2 e2.1 e2.2.1 e2.2.2
        he1 he2 (by rw [hfq1, hfq2]; exact hf)
      rw [hv1, hv2] at hmono
      exact hmono

theorem code_length_monotone_witness :
    ([true] : List Bool).length ≤ ([false] : List Bool).length :=
  code_length_monotone [('a', 2), ('b', 1)] (by decide)
    (.internal 3 (some (.leaf (.sym 'b') 1)) (some (.leaf (.sym 'a') 2))) []
    [(Tok.sym 'b', [false]), (Tok.sym 'a', [true])]
    (by simp [build_huffman_tree, build_loop_cons2, build_loop_single, extractMin,
      HuffmanNode.freq])
    (by simp [generate_codes, gen_codes_aux, dictInsert])
    'a' 2 'b' 1 [true] [false]
    (by simp) (by simp) (by omega)
    (by simp) (by simp)
